import Mathlib

/-!
Verification of the categorical (event-indexed) sensor-data container of
`katdal/categorical.py`.

The container `CategoricalData` stores a deduplicated vocabulary
(`unique_values`), one vocabulary index per segment (`indices`) and the
segment boundaries (`events`, whose final entry is a sentinel equal to the
total number of dumps).  NumPy arrays are modelled as Lean lists; machine
integers of the dump axis are modelled as `Int`, vocabulary indices as `Nat`.
Fallible operations (those that can raise in Python) return `Option`.
-/

variable {α : Type} [DecidableEq α]

/-- Position of the first occurrence of `x` in a list (Python's `list.index`,
`np.unique` inverse positions and the `OrderedDict` slot numbers all reduce to
this).  Returns the length when absent (callers only use it on members). -/
def posOf (x : α) : List α → Nat
  | [] => 0
  | y :: ys => if y = x then 0 else posOf x ys + 1

/-- The `OrderedDict` insertion loop of `unique_in_order`: walk the elements,
keeping each one the first time it is seen (`seen` holds the keys collected so
far). -/
def unique_in_order_aux (seen : List α) : List α → List α
  | [] => []
  | x :: xs =>
      if x ∈ seen then unique_in_order_aux seen xs
      else x :: unique_in_order_aux (seen ++ [x]) xs

/-- `unique_in_order` of `categorical.py`: unique elements in the order of
first appearance (the `OrderedDict` key order). -/
def unique_in_order (l : List α) : List α := unique_in_order_aux [] l

/-- The `inverse` array returned by `unique_in_order(..., return_inverse=True)`:
for each element, its slot in the deduplicated list. -/
def unique_inverse (l : List α) : List Nat :=
  l.map (fun x => posOf x (unique_in_order l))

/-- The `CategoricalData` container: vocabulary, per-segment vocabulary
indices, and event boundaries (last entry is the length sentinel). -/
structure CategoricalData (α : Type) where
  unique_values : List α
  indices : List Nat
  events : List Int
deriving DecidableEq

/-- `CategoricalData.__init__`: deduplicate the sensor values via
`unique_in_order` and store the events as given.  The Python constructor
performs no shape validation whatsoever. -/
def CategoricalData.ofValuesEvents (values : List α) (events : List Int) :
    CategoricalData α :=
  { unique_values := unique_in_order values
    indices := unique_inverse values
    events := events }

/-- `np.ndarray.searchsorted(v, side='right')` on a sorted array: the number
of elements `≤ v` (the right insertion point). -/
def searchsorted_right (a : List Int) (v : Int) : Nat :=
  a.countP (fun e => decide (e ≤ v))

/-- `CategoricalData._lookup` for a single dump: index of the last event at or
before `d`; `none` models the `IndexError` raised when
`preceding_events < 0` or `preceding_events >= len(indices)`. -/
def CategoricalData.lookup (c : CategoricalData α) (d : Int) : Option Nat :=
  let p := searchsorted_right c.events d
  if p = 0 ∨ c.indices.length < p then none
  else c.indices.get? (p - 1)

/-- `CategoricalData.__getitem__` for a single integer dump: `_lookup`
followed by vocabulary indexing. -/
def CategoricalData.getitem (c : CategoricalData α) (d : Int) : Option α :=
  (c.lookup d).bind (fun i => c.unique_values.get? i)

/-- `CategoricalData.remove`: no-op when the value is absent; otherwise drop
the vocabulary entry, keep only segments whose index differs from the removed
one (the boolean mask `keep` applied to both `indices` and the first `N`
entries of `events`), remap the surviving indices downward and re-append the
length sentinel.  (`events.getLastD 0` models `events[-1]`; all claims supply
a non-empty event list, where the two coincide.) -/
def CategoricalData.remove (c : CategoricalData α) (value : α) :
    CategoricalData α :=
  if value ∈ c.unique_values then
    let index := posOf value c.unique_values
    let kept := (c.indices.zip c.events.dropLast).filter
      (fun p => decide (p.1 ≠ index))
    { unique_values := c.unique_values.eraseIdx index
      indices := kept.map (fun p => if index ≤ p.1 then p.1 - 1 else p.1)
      events := kept.map (fun p => p.2) ++ [c.events.getLastD 0] }
  else c

/-- The `changes` selection of `CategoricalData.remove_repeats`: keep a
position when it is the first one or its index differs from the immediately
preceding index (`np.nonzero([1] + np.diff(indices))`).  `prev` threads the
index of the previous original position. -/
def collapseRuns : List (Nat × Int) → Option Nat → List (Nat × Int)
  | [], _ => []
  | p :: rest, prev =>
      if prev = some p.1 then collapseRuns rest (some p.1)
      else p :: collapseRuns rest (some p.1)

/-- `CategoricalData.remove_repeats`.  On a series with empty `indices` the
Python code computes `changes == [0]` and `indices[[0]]` raises `IndexError`:
modelled by `none`. -/
def CategoricalData.remove_repeats (c : CategoricalData α) :
    Option (CategoricalData α) :=
  if c.indices = [] then none
  else
    let kept := collapseRuns (c.indices.zip c.events.dropLast) none
    some { unique_values := c.unique_values
           indices := kept.map Prod.fst
           events := kept.map Prod.snd ++ [c.events.getLastD 0] }

/-- Position of the boundary nearest to `e`, first position on ties, i.e.
`np.abs(e - segments).argmin()` (NumPy's `argmin` returns the first index
attaining the minimum; here the head wins ties against the best of the
tail). -/
def argminAbs : List Int → Int → Nat
  | [], _ => 0
  | b :: rest, e =>
      if rest = [] then 0
      else if (e - b).natAbs ≤ (e - rest.getD (argminAbs rest e) 0).natAbs
        then 0
        else argminAbs rest e + 1

/-- `segments[argmin(...)]`: the boundary value nearest to `e`. -/
def snapTo (bs : List Int) (e : Int) : Int := bs.getD (argminAbs bs e) 0

/-- Sorted insertion skipping duplicates; folding it over a list yields the
sorted distinct values, i.e. `np.unique`. -/
def insertSortedNat (x : Nat) : List Nat → List Nat
  | [] => [x]
  | y :: ys =>
      if x < y then x :: y :: ys
      else if x = y then y :: ys
      else y :: insertSortedNat x ys

/-- `np.unique` on an integer array: sorted distinct values. -/
def np_unique (l : List Nat) : List Nat := l.foldr insertSortedNat []

/-- `CategoricalData.align`: snap every event to the nearest target boundary,
keep only positions whose snapped value strictly increases to the next one
(`np.nonzero(np.diff(events) > 0)`), re-deduplicate the vocabulary through
`np.unique(indices[final], return_inverse=True)` and re-append the snapped
sentinel.  With an empty `segments` array `argmin(axis=0)` raises
(`ValueError`): modelled by `none`. -/
def CategoricalData.align (c : CategoricalData α) (segments : List Int) :
    Option (CategoricalData α) :=
  if segments = [] then none
  else
    let snapped := c.events.map (snapTo segments)
    let kept := (c.indices.zip (snapped.zip snapped.tail)).filter
      (fun p => decide (p.2.1 < p.2.2))
    let keptIdx := kept.map Prod.fst
    let subset := np_unique keptIdx
    some { unique_values := subset.filterMap (fun i => c.unique_values.get? i)
           indices := keptIdx.map (fun i => posOf i subset)
           events := kept.map (fun p => p.2.1) ++ [snapped.getLastD 0] }

/-- The `initial_indices` entry of `CategoricalData.partition` for one
segment start: `indices[(events.searchsorted(s, 'right') - 1).clip(0, N-1)]`,
with `events` the real (non-sentinel) events.  (`getD _ 0` models the NumPy
take; every claim below only evaluates it at in-range positions.) -/
def partition_initial_index (c : CategoricalData α) (s : Int) : Nat :=
  let realEvents := c.events.dropLast
  let p : Int := (searchsorted_right realEvents s : Int) - 1
  c.indices.getD ((min (max p 0) ((realEvents.length : Int) - 1)).toNat) 0

/-- One window `[s, e)` of `CategoricalData.partition`: real events inside the
window (relativised to `s`) with their indices; an initial event at 0 is
inserted when missing, and the window length is appended as sentinel. -/
def partition_piece (c : CategoricalData α) (s e : Int) : CategoricalData α :=
  let pairs := (c.indices.zip c.events.dropLast).filter
    (fun p => decide (s ≤ p.2) && decide (p.2 < e))
  let segIdx := pairs.map Prod.fst
  let segEv := pairs.map (fun p => p.2 - s)
  if segEv.head? = some 0 then
    { unique_values := c.unique_values
      indices := segIdx
      events := segEv ++ [e - s] }
  else
    { unique_values := c.unique_values
      indices := partition_initial_index c s :: segIdx
      events := 0 :: (segEv ++ [e - s]) }

/-- `CategoricalData.partition`: one piece per consecutive boundary pair. -/
def CategoricalData.partition (c : CategoricalData α) (segments : List Int) :
    List (CategoricalData α) :=
  (segments.zip segments.tail).map (fun se => partition_piece c se.1 se.2)

/-- `np.cumsum` with running total `acc`. -/
def cumsumFrom (acc : Int) : List Int → List Int
  | [] => []
  | x :: xs => (acc + x) :: cumsumFrom (acc + x) xs

/-- `np.cumsum`. -/
def cumsum (l : List Int) : List Int := cumsumFrom 0 l

/-- The index-remapping loop of `concatenate_categorical`: each dataset's
indices are pushed through its slice `inv[splits[n]:splits[n+1]]` of the
global inverse (consumed prefix-by-prefix here). -/
def concat_indices : List (CategoricalData α) → List Nat → List Nat
  | [], _ => []
  | c :: rest, inv =>
      c.indices.map (fun i => (inv.take c.unique_values.length).getD i 0)
        ++ concat_indices rest (inv.drop c.unique_values.length)

/-- The event-offset loop of `concatenate_categorical`: each dataset's real
events shifted by the cumulative start of its segment. -/
def concat_events : List (CategoricalData α) → List Int → List Int
  | [], _ => []
  | c :: rest, offs =>
      c.events.dropLast.map (fun e => e + offs.headD 0)
        ++ concat_events rest offs.tail

/-- `concatenate_categorical`.  A single dataset is returned unchanged; on an
empty input list `np.concatenate([])` raises (`ValueError`): modelled by
`none`.  Otherwise: merged vocabulary in first-seen order, remapped indices,
offset events, total length sentinel, and `remove_repeats` unless
`allow_repeats`. -/
def concatenate_categorical (split_data : List (CategoricalData α))
    (allow_repeats : Bool) : Option (CategoricalData α) :=
  if split_data.length = 1 then split_data.head?
  else if split_data = [] then none
  else
    let segs := cumsum (0 :: split_data.map (fun c => c.events.getLastD 0))
    let allVals := (split_data.map (fun c => c.unique_values)).flatten
    let uniq := unique_in_order allVals
    let inv := allVals.map (fun x => posOf x uniq)
    let data : CategoricalData α :=
      { unique_values := uniq
        indices := concat_indices split_data inv
        events := concat_events split_data segs ++ [segs.getLastD 0] }
    if allow_repeats then some data else data.remove_repeats

/-- The greedy test of `sensor_to_categorical`:
`sensor_values[n-1] in greedy_values and sensor_values[n] not in
greedy_values`. -/
def greedy_to_nongreedy (values greedy : List α) (n : Nat) : Bool :=
  match values.get? (n - 1), values.get? n with
  | some a, some b => decide (a ∈ greedy) && decide (b ∉ greedy)
  | _, _ => false

/-- The greedy event shift of `sensor_to_categorical`, position by position:
`events[greedy_to_nongreedy] += 1` where the bumped positions are the
`n in range(1, len(sensor_values))` with a greedy-to-non-greedy change. -/
def greedy_shift_from (values greedy : List α) : Nat → List Int → List Int
  | _, [] => []
  | n, e :: rest =>
      (if 1 ≤ n ∧ n < values.length ∧ greedy_to_nongreedy values greedy n = true
       then e + 1 else e) :: greedy_shift_from values greedy (n + 1) rest

/-- The greedy boundary-shift step of `sensor_to_categorical` (the block
guarded by `if greedy_values is not None`), acting on the culled value and
event arrays. -/
def greedy_shift (values greedy : List α) (events : List Int) : List Int :=
  greedy_shift_from values greedy 0 events

/-- Number of strict ascents between consecutive entries of a list (the size
of `np.nonzero(np.diff(l) > 0)`). -/
def countAsc : List Int → Nat
  | [] => 0
  | [_] => 0
  | a :: b :: t => (if a < b then 1 else 0) + countAsc (b :: t)

/-- Specification-side semantics of zeroth-order hold over aligned
(index, event) pairs sorted by event: the index of the last event at or
before `d`, `none` when `d` precedes every event. -/
def stepIdx : List (Nat × Int) → Int → Option Nat
  | [], _ => none
  | p :: rest, d =>
      if p.2 ≤ d then some ((stepIdx rest d).getD p.1) else none

/-- Modelled from the spec's wording for `align`: position `k` is the
chronologically last of the events snapping to its target boundary when no
later event snaps to the same boundary value. -/
def last_of_its_boundary (snapped : List Int) (k : Nat) : Bool :=
  decide (∀ j, j < snapped.length → k < j →
    snapped.getD k 0 ≠ snapped.getD j 0)

/-- Modelled from the spec's wording for `align`: the event positions that
survive snapping (the last event per target boundary, the sentinel run
excluded). -/
def last_survivor_positions (snapped : List Int) : List Nat :=
  (List.range (snapped.length - 1)).filter (last_of_its_boundary snapped)

/-- The value of each stored segment, via vocabulary lookup. -/
def segVals (c : CategoricalData α) : List (Option α) :=
  c.indices.map (fun i => c.unique_values.get? i)

/-! ## Basic lemmas about `posOf` -/

theorem posOf_lt_length {x : α} : ∀ {l : List α}, x ∈ l → posOf x l < l.length
  | y :: ys, h => by
    by_cases hxy : y = x
    · simp [posOf, hxy]
    · have hx : x ∈ ys := by
        rcases List.mem_cons.1 h with h' | h'
        · exact absurd h'.symm hxy
        · exact h'
      simpa [posOf, hxy] using Nat.succ_lt_succ (posOf_lt_length hx)

theorem getElem?_posOf {x : α} : ∀ {l : List α}, x ∈ l → l[posOf x l]? = some x
  | y :: ys, h => by
    by_cases hxy : y = x
    · simp [posOf, hxy]
    · have hx : x ∈ ys := by
        rcases List.mem_cons.1 h with h' | h'
        · exact absurd h'.symm hxy
        · exact h'
      simpa [posOf, hxy] using getElem?_posOf hx

theorem map_posOf_nodup : ∀ {l : List α}, l.Nodup →
    l.map (fun x => posOf x l) = List.range l.length
  | [], _ => rfl
  | y :: ys, h => by
    have hy : y ∉ ys := (List.nodup_cons.1 h).1
    have hys : ys.Nodup := (List.nodup_cons.1 h).2
    have hmap : ys.map (fun x => posOf x (y :: ys))
        = ys.map (fun x => posOf x ys + 1) := by
      refine List.map_congr_left (fun a ha => ?_)
      have hya : y ≠ a := fun hya => hy (hya ▸ ha)
      simp [posOf, hya]
    calc (y :: ys).map (fun x => posOf x (y :: ys))
        = posOf y (y :: ys) :: ys.map (fun x => posOf x (y :: ys)) := rfl
      _ = 0 :: (ys.map (fun x => posOf x ys)).map Nat.succ := by
          rw [hmap, List.map_map]; simp [posOf]
      _ = 0 :: (List.range ys.length).map Nat.succ := by rw [map_posOf_nodup hys]
      _ = List.range (y :: ys).length := by
          rw [List.length_cons, List.range_succ_eq_map]

/-! ## Basic lemmas about `unique_in_order` -/

theorem mem_unique_in_order_aux {x : α} :
    ∀ {l seen : List α}, x ∈ unique_in_order_aux seen l ↔ (x ∈ l ∧ x ∉ seen)
  | [], seen => by simp [unique_in_order_aux]
  | y :: ys, seen => by
    by_cases hy : y ∈ seen
    · rw [unique_in_order_aux, if_pos hy, mem_unique_in_order_aux]
      constructor
      · rintro ⟨h1, h2⟩
        exact ⟨List.mem_cons_of_mem _ h1, h2⟩
      · rintro ⟨h1, h2⟩
        rcases List.mem_cons.1 h1 with h' | h'
        · exact absurd (h' ▸ hy) h2
        · exact ⟨h', h2⟩
    · rw [unique_in_order_aux, if_neg hy]
      constructor
      · intro h
        rcases List.mem_cons.1 h with h' | h'
        · exact ⟨h' ▸ List.mem_cons_self _ _, h' ▸ hy⟩
        · rcases mem_unique_in_order_aux.1 h' with ⟨h1, h2⟩
          refine ⟨List.mem_cons_of_mem _ h1, fun hc => h2 ?_⟩
          exact List.mem_append_left _ hc
      · rintro ⟨h1, h2⟩
        rcases List.mem_cons.1 h1 with h' | h'
        · exact h' ▸ List.mem_cons_self _ _
        · by_cases hxy : x = y
          · exact hxy ▸ List.mem_cons_self _ _
          · refine List.mem_cons_of_mem _ (mem_unique_in_order_aux.2 ⟨h', ?_⟩)
            intro hc
            rcases List.mem_append.1 hc with hc' | hc'
            · exact h2 hc'
            · exact hxy (List.mem_singleton.1 hc')

theorem mem_unique_in_order {x : α} {l : List α} :
    x ∈ unique_in_order l ↔ x ∈ l := by
  unfold unique_in_order
  rw [mem_unique_in_order_aux]
  simp

theorem nodup_unique_in_order_aux :
    ∀ (l seen : List α), (unique_in_order_aux seen l).Nodup
  | [], seen => List.nodup_nil
  | y :: ys, seen => by
    by_cases hy : y ∈ seen
    · rw [unique_in_order_aux, if_pos hy]
      exact nodup_unique_in_order_aux ys seen
    · rw [unique_in_order_aux, if_neg hy]
      refine List.nodup_cons.2 ⟨fun hc => ?_, nodup_unique_in_order_aux ys _⟩
      exact (mem_unique_in_order_aux.1 hc).2 (List.mem_append_right _
        (List.mem_singleton.2 rfl))

theorem nodup_unique_in_order (l : List α) : (unique_in_order l).Nodup :=
  nodup_unique_in_order_aux l []

theorem unique_in_order_aux_nodup_eq :
    ∀ {l seen : List α}, l.Nodup → (∀ x ∈ l, x ∉ seen) →
      unique_in_order_aux seen l = l
  | [], seen, _, _ => rfl
  | y :: ys, seen, hnd, hdisj => by
    have hy : y ∉ seen := hdisj y (List.mem_cons_self _ _)
    rw [unique_in_order_aux, if_neg hy]
    have : unique_in_order_aux (seen ++ [y]) ys = ys := by
      refine unique_in_order_aux_nodup_eq (List.nodup_cons.1 hnd).2 ?_
      intro x hx hc
      rcases List.mem_append.1 hc with hc' | hc'
      · exact hdisj x (List.mem_cons_of_mem _ hx) hc'
      · exact (List.nodup_cons.1 hnd).1 (List.mem_singleton.1 hc' ▸ hx)
    rw [this]

theorem unique_in_order_nodup_eq {l : List α} (h : l.Nodup) :
    unique_in_order l = l :=
  unique_in_order_aux_nodup_eq h (fun _ _ hc => (List.not_mem_nil _) hc)

theorem unique_in_order_aux_all_seen :
    ∀ {l seen : List α}, (∀ x ∈ l, x ∈ seen) → unique_in_order_aux seen l = []
  | [], seen, _ => rfl
  | y :: ys, seen, h => by
    rw [unique_in_order_aux, if_pos (h y (List.mem_cons_self _ _))]
    exact unique_in_order_aux_all_seen (fun x hx => h x (List.mem_cons_of_mem _ hx))

theorem unique_in_order_aux_append :
    ∀ (xs ys seen : List α), unique_in_order_aux seen (xs ++ ys)
      = unique_in_order_aux seen xs
        ++ unique_in_order_aux (seen ++ unique_in_order_aux seen xs) ys
  | [], ys, seen => by simp [unique_in_order_aux]
  | x :: xs, ys, seen => by
    by_cases hx : x ∈ seen
    · rw [List.cons_append, unique_in_order_aux, if_pos hx,
        unique_in_order_aux, if_pos hx, unique_in_order_aux_append]
    · rw [List.cons_append, unique_in_order_aux, if_neg hx,
        unique_in_order_aux, if_neg hx, unique_in_order_aux_append]
      rw [List.cons_append]
      have hassoc : seen ++ [x] ++ unique_in_order_aux (seen ++ [x]) xs
          = seen ++ (x :: unique_in_order_aux (seen ++ [x]) xs) := by
        rw [List.append_assoc]
        rfl
      rw [hassoc]

theorem unique_in_order_append_subset {V W : List α} (hnd : V.Nodup)
    (hw : ∀ x ∈ W, x ∈ V) : unique_in_order (V ++ W) = V := by
  unfold unique_in_order
  rw [unique_in_order_aux_append]
  have hV : unique_in_order_aux [] V = V :=
    unique_in_order_aux_nodup_eq hnd (fun _ _ hc => (List.not_mem_nil _) hc)
  rw [hV]
  have hW : unique_in_order_aux ([] ++ V) W = [] := by
    apply unique_in_order_aux_all_seen
    intro x hx
    simpa using hw x hx
  rw [hW, List.append_nil]

/-! ## `searchsorted_right` (countP) characterisations on sorted lists -/

theorem searchsorted_right_le_length (a : List Int) (v : Int) :
    searchsorted_right a v ≤ a.length :=
  List.countP_le_length _

theorem searchsorted_right_append (a b : List Int) (v : Int) :
    searchsorted_right (a ++ b) v
      = searchsorted_right a v + searchsorted_right b v :=
  List.countP_append _ _ _

theorem searchsorted_right_eq_zero {a : List Int} {v : Int} :
    searchsorted_right a v = 0 ↔ ∀ x ∈ a, v < x := by
  unfold searchsorted_right
  rw [List.countP_eq_zero]
  constructor
  · intro h x hx
    have := h x hx
    simp at this
    omega
  · intro h x hx
    simpa using not_le.2 (h x hx)

theorem searchsorted_right_eq_length {a : List Int} {v : Int} :
    searchsorted_right a v = a.length ↔ ∀ x ∈ a, x ≤ v := by
  unfold searchsorted_right
  rw [List.countP_eq_length]
  constructor
  · intro h x hx
    simpa using h x hx
  · intro h x hx
    simpa using h x hx

theorem searchsorted_right_cons (x : Int) (a : List Int) (v : Int) :
    searchsorted_right (x :: a) v
      = searchsorted_right a v + if x ≤ v then 1 else 0 := by
  unfold searchsorted_right
  rw [List.countP_cons]
  by_cases h : x ≤ v <;> simp [h]

/-- On a sorted list, a bracketing position pins down the right insertion
point: if `a[i] <= v < a[i+1]` then `searchsorted_right a v = i + 1`. -/
theorem searchsorted_right_bracket :
    ∀ {a : List Int}, a.Pairwise (· ≤ ·) → ∀ {i : Nat} {v : Int},
      i + 1 < a.length → a.getD i 0 ≤ v → v < a.getD (i + 1) 0 →
        searchsorted_right a v = i + 1
  | x :: rest, hs, i, v, hi, h1, h2 => by
    match i with
    | 0 =>
      have hx : x ≤ v := by simpa using h1
      have hrest : searchsorted_right rest v = 0 := by
        apply searchsorted_right_eq_zero.2
        intro y hy
        match rest, hi, h2 with
        | r0 :: restTail, _, h2 =>
          have hr0 : v < r0 := by simpa using h2
          rcases List.mem_cons.1 hy with hmy | hmy
          · omega
          · have := List.rel_of_pairwise_cons (List.pairwise_cons.1 hs).2 hmy
            omega
      rw [searchsorted_right_cons, hrest]
      simp [hx]
    | j + 1 =>
      have hlen : j + 1 < rest.length := by
        simpa [List.length_cons] using hi
      have h1R : rest.getD j 0 ≤ v := by simpa using h1
      have h2R : v < rest.getD (j + 1) 0 := by simpa using h2
      have hx : x ≤ v := by
        have hjlt : j < rest.length := by omega
        have hmem : rest.getD j 0 ∈ rest := by
          rw [List.getD_eq_getElem?_getD, List.getElem?_eq_getElem hjlt]
          exact List.getElem_mem _
        have := List.rel_of_pairwise_cons hs hmem
        omega
      rw [searchsorted_right_cons,
        searchsorted_right_bracket (List.pairwise_cons.1 hs).2 hlen h1R h2R]
      simp [hx]

/-! ## `stepIdx`: zeroth-order-hold semantics over sorted (index, event) pairs -/

theorem stepIdx_nil (d : Int) : stepIdx [] d = none := rfl

theorem stepIdx_none_of_forall_gt {pairs : List (Nat × Int)} {d : Int}
    (h : ∀ p ∈ pairs, d < p.2) : stepIdx pairs d = none := by
  match pairs with
  | [] => rfl
  | p :: rest =>
    have := h p (List.mem_cons_self _ _)
    simp [stepIdx, not_le.2 this]

theorem stepIdx_isSome_of_mem_le {pairs : List (Nat × Int)} {d : Int}
    (hs : (pairs.map Prod.snd).Pairwise (· ≤ ·))
    (h : ∃ p ∈ pairs, p.2 ≤ d) : (stepIdx pairs d).isSome := by
  match pairs with
  | [] => simp at h
  | q :: rest =>
    have hq : q.2 ≤ d := by
      rcases h with ⟨p, hp, hpd⟩
      rcases List.mem_cons.1 hp with hp' | hp'
      · exact hp' ▸ hpd
      · have : q.2 ≤ p.2 := by
          rw [List.map_cons] at hs
          exact List.rel_of_pairwise_cons hs (List.mem_map_of_mem Prod.snd hp')
        omega
    simp [stepIdx, hq]

/-- The workhorse: on aligned sorted data, `stepIdx` returns the index stored
at the right-insertion-point position, i.e. exactly what
`indices[searchsorted(events, d, 'right') - 1]` selects. -/
theorem stepIdx_eq_searchsorted :
    ∀ {I : List Nat} {E : List Int}, I.length = E.length →
      E.Pairwise (· ≤ ·) → ∀ (d : Int),
        stepIdx (I.zip E) d
          = if 0 < searchsorted_right E d
            then I[searchsorted_right E d - 1]? else none
  | [], [], _, _, d => by simp [stepIdx, searchsorted_right]
  | i :: is, e :: es, hlen, hs, d => by
    have hlen' : is.length = es.length := by simpa using hlen
    have hs' : es.Pairwise (· ≤ ·) := (List.pairwise_cons.1 hs).2
    by_cases he : e ≤ d
    · rw [List.zip_cons_cons]
      have hrec := stepIdx_eq_searchsorted hlen' hs' d
      rw [searchsorted_right_cons]
      have hL : stepIdx ((i, e) :: is.zip es) d
          = some ((stepIdx (is.zip es) d).getD i) := by
        simp [stepIdx, he]
      rcases Nat.eq_zero_or_pos (searchsorted_right es d) with h0 | h0
      · rw [h0] at hrec
        simp only [Nat.lt_irrefl, if_false] at hrec
        rw [hL, hrec, h0]
        simp [he]
      · have hlt : searchsorted_right es d - 1 < is.length := by
          have := searchsorted_right_le_length es d
          omega
        rw [hrec] at hL
        rw [hL]
        simp only [h0, if_pos, if_true]
        rw [List.getElem?_eq_getElem hlt]
        have hidx : searchsorted_right es d + (if e ≤ d then 1 else 0) - 1
            = (searchsorted_right es d - 1) + 1 := by
          simp only [he, if_true]
          omega
        have hpos : 0 < searchsorted_right es d + (if e ≤ d then 1 else 0) := by
          simp only [he, if_true]
          omega
        rw [if_pos hpos, hidx, List.getElem?_cons_succ,
          List.getElem?_eq_getElem hlt]
        simp
    · have hz : searchsorted_right (e :: es) d = 0 := by
        apply searchsorted_right_eq_zero.2
        intro x hx
        rcases List.mem_cons.1 hx with hx' | hx'
        · omega
        · have : e ≤ x := List.rel_of_pairwise_cons hs hx'
          omega
      rw [List.zip_cons_cons, hz]
      simp [stepIdx, he]

theorem stepIdx_append_all_le {xs ys : List (Nat × Int)} {d : Int} {v : Nat}
    (hys : stepIdx ys d = some v) :
    ∀ (h : ∀ p ∈ xs, p.2 ≤ d), stepIdx (xs ++ ys) d = some v := by
  induction xs with
  | nil => intro _; simpa using hys
  | cons p rest ih =>
    intro h
    have hp : p.2 ≤ d := h p (List.mem_cons_self _ _)
    have := ih (fun q hq => h q (List.mem_cons_of_mem _ hq))
    simp [stepIdx, hp, this]

theorem stepIdx_append_all_le_none {xs ys : List (Nat × Int)} {d : Int}
    (hys : stepIdx ys d = none) :
    stepIdx (xs ++ ys) d = stepIdx xs d := by
  induction xs with
  | nil => simpa using hys
  | cons p rest ih =>
    by_cases hp : p.2 ≤ d <;> simp [stepIdx, hp, ih]

theorem stepIdx_append_all_gt {xs ys : List (Nat × Int)} {d : Int}
    (hys : ∀ p ∈ ys, d < p.2) :
    stepIdx (xs ++ ys) d = stepIdx xs d :=
  stepIdx_append_all_le_none (stepIdx_none_of_forall_gt hys)

theorem stepIdx_map_shift (pairs : List (Nat × Int)) (off d : Int) :
    stepIdx (pairs.map (fun p => (p.1, p.2 + off))) d
      = stepIdx pairs (d - off) := by
  induction pairs with
  | nil => rfl
  | cons p rest ih =>
    have hiff : p.2 + off ≤ d ↔ p.2 ≤ d - off := by omega
    by_cases hp : p.2 ≤ d - off
    · simp [stepIdx, hiff.2 hp, hp, ih]
    · have h1 : ¬(p.2 + off ≤ d) := fun h => hp (hiff.1 h)
      simp [stepIdx, h1, hp]

/-- Stability across an event-free gap: with no event in `(s, s + t]`, the
zeroth-order hold at `s + t` equals the one at `s`. -/
theorem stepIdx_gap {pairs : List (Nat × Int)} {s t : Int} (ht : 0 ≤ t)
    (h : ∀ p ∈ pairs, ¬(s < p.2 ∧ p.2 ≤ s + t)) :
    stepIdx pairs (s + t) = stepIdx pairs s := by
  induction pairs with
  | nil => rfl
  | cons p rest ih =>
    have hp := h p (List.mem_cons_self _ _)
    have ih' := ih (fun q hq => h q (List.mem_cons_of_mem _ hq))
    by_cases hps : p.2 ≤ s
    · have : p.2 ≤ s + t := by omega
      simp [stepIdx, hps, this, ih']
    · have : ¬(p.2 ≤ s + t) := by omega
      simp [stepIdx, hps, this]

/-- A non-empty event list splits into its real events plus the sentinel. -/
theorem events_decomp {E : List Int} (h : E ≠ []) :
    E.dropLast ++ [E.getLastD 0] = E := by
  have h1 : E.getLastD 0 = E.getLast h := by
    rw [List.getLastD_eq_getLast?, List.getLast?_eq_getLast E h]
    rfl
  rw [h1]
  exact List.dropLast_append_getLast h

/-- `_lookup` below the sentinel is the zeroth-order hold over the real
(index, event) pairs. -/
theorem lookup_eq_stepIdx {c : CategoricalData α}
    (hN : c.events.length = c.indices.length + 1)
    (hs : c.events.Pairwise (· ≤ ·)) {d : Int}
    (hd : d < c.events.getLastD 0) :
    c.lookup d = stepIdx (c.indices.zip c.events.dropLast) d := by
  have hne : c.events ≠ [] := by
    intro h
    rw [h] at hN
    simp at hN
  have hlenE : c.events.dropLast.length = c.indices.length := by
    rw [List.length_dropLast, hN]
    omega
  have hsD : c.events.dropLast.Pairwise (· ≤ ·) :=
    List.Pairwise.sublist (List.dropLast_sublist _) hs
  have hssr : searchsorted_right c.events d
      = searchsorted_right c.events.dropLast d := by
    conv_lhs => rw [← events_decomp hne]
    rw [searchsorted_right_append]
    have hL : ¬(c.events.getLastD 0 ≤ d) := not_le.2 hd
    rw [List.getLastD_eq_getLast?] at hL
    simp [searchsorted_right, List.countP_cons, hL]
  rw [stepIdx_eq_searchsorted hlenE.symm hsD d]
  unfold CategoricalData.lookup
  simp only [hssr]
  have hle : searchsorted_right c.events.dropLast d ≤ c.indices.length := by
    rw [← hlenE]
    exact searchsorted_right_le_length _ _
  rcases Nat.eq_zero_or_pos (searchsorted_right c.events.dropLast d) with h0 | h0
  · simp [h0]
  · have hcond : ¬(searchsorted_right c.events.dropLast d = 0
        ∨ c.indices.length < searchsorted_right c.events.dropLast d) := by
      omega
    rw [if_neg hcond, if_pos h0, List.get?_eq_getElem?]

/-- Restricting sorted pairs to a window `[s, e)` and relativising to `s`:
the zeroth-order hold at `t` inside the window equals the absolute hold at
`s + t` whenever some event falls in `[s, s + t]`, and is `none` otherwise. -/
theorem stepIdx_filter_window {pairs : List (Nat × Int)}
    (hs : (pairs.map Prod.snd).Pairwise (· ≤ ·)) {s e t : Int}
    (ht : 0 ≤ t) (hte : s + t < e) :
    stepIdx ((pairs.filter
        (fun p => decide (s ≤ p.2) && decide (p.2 < e))).map
        (fun p => (p.1, p.2 - s))) t
      = if ∃ p ∈ pairs, s ≤ p.2 ∧ p.2 ≤ s + t
        then stepIdx pairs (s + t) else none := by
  induction pairs with
  | nil => simp [stepIdx]
  | cons p rest ih =>
    have hsnd : ∀ q ∈ rest, p.2 ≤ q.2 := by
      intro q hq
      rw [List.map_cons] at hs
      exact List.rel_of_pairwise_cons hs (List.mem_map_of_mem Prod.snd hq)
    have hsrest : (rest.map Prod.snd).Pairwise (· ≤ ·) := by
      rw [List.map_cons] at hs
      exact (List.pairwise_cons.1 hs).2
    have ihr := ih hsrest
    by_cases h1 : s ≤ p.2
    · by_cases h2 : p.2 < e
      · rw [List.filter_cons, if_pos (by simp [h1, h2]), List.map_cons]
        by_cases h3 : p.2 ≤ s + t
        · have h3t : p.2 - s ≤ t := by omega
          rw [if_pos ⟨p, List.mem_cons_self _ _, h1, h3⟩]
          have hR : stepIdx (p :: rest) (s + t)
              = some ((stepIdx rest (s + t)).getD p.1) := by
            simp [stepIdx, h3]
          have hL : stepIdx ((p.1, p.2 - s) :: (rest.filter
              (fun q => decide (s ≤ q.2) && decide (q.2 < e))).map
                (fun q => (q.1, q.2 - s))) t
              = some ((stepIdx ((rest.filter
                  (fun q => decide (s ≤ q.2) && decide (q.2 < e))).map
                    (fun q => (q.1, q.2 - s))) t).getD p.1) := by
            simp [stepIdx, h3t]
          rw [hL, hR, ihr]
          by_cases h4 : ∃ q ∈ rest, s ≤ q.2 ∧ q.2 ≤ s + t
          · rw [if_pos h4]
          · rw [if_neg h4]
            have hgt : ∀ q ∈ rest, s + t < q.2 := by
              intro q hq
              by_contra hc
              exact h4 ⟨q, hq, le_trans h1 (hsnd q hq), by omega⟩
            rw [stepIdx_none_of_forall_gt hgt]
        · have hnone : ¬(p.2 - s ≤ t) := by omega
          have hL : stepIdx ((p.1, p.2 - s) :: (rest.filter
              (fun q => decide (s ≤ q.2) && decide (q.2 < e))).map
                (fun q => (q.1, q.2 - s))) t = none := by
            simp [stepIdx, hnone]
          have hno : ¬∃ q ∈ p :: rest, s ≤ q.2 ∧ q.2 ≤ s + t := by
            rintro ⟨q, hq, hqs, hqt⟩
            rcases List.mem_cons.1 hq with hq' | hq'
            · subst hq'
              omega
            · have := hsnd q hq'
              omega
          rw [hL, if_neg hno]
      · have hge : e ≤ p.2 := by omega
        have hfil : (p :: rest).filter
            (fun q => decide (s ≤ q.2) && decide (q.2 < e)) = [] := by
          apply List.filter_eq_nil_iff.2
          intro q hq
          have : e ≤ q.2 := by
            rcases List.mem_cons.1 hq with hq' | hq'
            · subst hq'
              exact hge
            · exact le_trans hge (hsnd q hq')
          simp
          intro _
          omega
        have hno : ¬∃ q ∈ p :: rest, s ≤ q.2 ∧ q.2 ≤ s + t := by
          rintro ⟨q, hq, hqs, hqt⟩
          rcases List.mem_cons.1 hq with hq' | hq'
          · subst hq'
            omega
          · have := hsnd q hq'
            omega
        rw [hfil, if_neg hno]
        rfl
    · rw [List.filter_cons, if_neg (by simp [h1])]
      have hps : p.2 ≤ s + t := by omega
      have hR : stepIdx (p :: rest) (s + t)
          = some ((stepIdx rest (s + t)).getD p.1) := by
        simp [stepIdx, hps]
      have hiff : (∃ q ∈ p :: rest, s ≤ q.2 ∧ q.2 ≤ s + t)
          ↔ ∃ q ∈ rest, s ≤ q.2 ∧ q.2 ≤ s + t := by
        constructor
        · rintro ⟨q, hq, hqs, hqt⟩
          rcases List.mem_cons.1 hq with hq' | hq'
          · subst hq'
            omega
          · exact ⟨q, hq', hqs, hqt⟩
        · rintro ⟨q, hq, hqs, hqt⟩
          exact ⟨q, List.mem_cons_of_mem _ hq, hqs, hqt⟩
      rw [ihr]
      by_cases h4 : ∃ q ∈ rest, s ≤ q.2 ∧ q.2 ≤ s + t
      · rw [if_pos h4, if_pos (hiff.2 h4), hR]
        have hsome : (stepIdx rest (s + t)).isSome := by
          apply stepIdx_isSome_of_mem_le hsrest
          rcases h4 with ⟨q, hq, hqs, hqt⟩
          exact ⟨q, hq, hqt⟩
        rcases Option.isSome_iff_exists.1 hsome with ⟨v, hv⟩
        rw [hv]
        rfl
      · rw [if_neg h4, if_neg (fun hc => h4 (hiff.1 hc))]

/-! ## Small getD utilities on sorted lists -/

theorem getD_eq_getElem {β : Type} {l : List β} {j : Nat} (dflt : β)
    (h : j < l.length) : l.getD j dflt = l[j] := by
  rw [List.getD_eq_getElem?_getD, List.getElem?_eq_getElem h]
  rfl

theorem getD_mem {β : Type} {l : List β} {j : Nat} (dflt : β)
    (h : j < l.length) : l.getD j dflt ∈ l := by
  rw [getD_eq_getElem dflt h]
  exact List.getElem_mem _

theorem getLastD_mem {β : Type} {l : List β} (dflt : β) (h : l ≠ []) :
    l.getLastD dflt ∈ l := by
  rw [List.getLastD_eq_getLast?, List.getLast?_eq_getLast l h]
  exact List.getLast_mem h

theorem getD_mono_of_sorted {E : List Int} (hs : E.Pairwise (· ≤ ·))
    {a b : Nat} (hab : a ≤ b) (hb : b < E.length) :
    E.getD a 0 ≤ E.getD b 0 := by
  rcases Nat.eq_or_lt_of_le hab with h | h
  · subst h
    exact le_refl _
  · rw [getD_eq_getElem 0 (by omega), getD_eq_getElem 0 hb]
    exact List.pairwise_iff_getElem.1 hs a b (by omega) hb h

theorem getD_zero_le_of_sorted {E : List Int} (hs : E.Pairwise (· ≤ ·))
    {x : Int} (hx : x ∈ E) : E.getD 0 0 ≤ x := by
  match E, hx with
  | e :: t, hx =>
    rcases List.mem_cons.1 hx with h | h
    · simp [h]
    · simpa using List.rel_of_pairwise_cons hs h

theorem le_getLastD_of_sorted {E : List Int} (hs : E.Pairwise (· ≤ ·))
    {x : Int} (hx : x ∈ E) : x ≤ E.getLastD 0 := by
  have hne : E ≠ [] := by
    intro h
    rw [h] at hx
    exact List.not_mem_nil _ hx
  rcases List.mem_iff_getElem.1 hx with ⟨j, hj, hxj⟩
  have hlast : E.getLastD 0 = E[E.length - 1] := by
    rw [List.getLastD_eq_getLast?, List.getLast?_eq_getLast E hne]
    simp [List.getLast_eq_getElem]
  rw [hlast, ← hxj]
  rcases Nat.eq_or_lt_of_le (Nat.le_sub_one_of_lt hj) with h | h
  · subst h
    exact le_refl _
  · exact List.pairwise_iff_getElem.1 hs j (E.length - 1) hj (by omega) h

/-- The vocabulary round-trip of the constructor: looking the deduplicated
vocabulary up at the inverse position recovers the original element. -/
theorem unique_vocab_roundtrip {values : List α} {i : Nat}
    (hi : i < values.length) :
    (unique_in_order values)[posOf values[i] (unique_in_order values)]?
      = some values[i] :=
  getElem?_posOf (mem_unique_in_order.2 (List.getElem_mem hi))

/-- Definitional unfoldings used to reason about the constructor and lookup. -/
theorem ofValuesEvents_events (values : List α) (events : List Int) :
    (CategoricalData.ofValuesEvents values events).events = events := rfl

theorem ofValuesEvents_indices (values : List α) (events : List Int) :
    (CategoricalData.ofValuesEvents values events).indices
      = unique_inverse values := rfl

theorem ofValuesEvents_unique_values (values : List α) (events : List Int) :
    (CategoricalData.ofValuesEvents values events).unique_values
      = unique_in_order values := rfl

theorem lookup_def (c : CategoricalData α) (d : Int) :
    c.lookup d
      = if searchsorted_right c.events d = 0
            ∨ c.indices.length < searchsorted_right c.events d
        then none else c.indices.get? (searchsorted_right c.events d - 1) := rfl

theorem getitem_def (c : CategoricalData α) (d : Int) :
    c.getitem d = (c.lookup d).bind (fun i => c.unique_values.get? i) := rfl

/-- C1: for a series built from `N` values and a non-decreasing non-negative
event list of length `N + 1`, single-dump lookup at any `d` lying in segment
`i` (that is, `events[i] ≤ d < events[i+1]`) returns `values[i]`; moreover
such a bracketing index is unique, hence it is the greatest index `i` with
`events[i] ≤ d < events[i+1]` (zeroth-order hold). -/
theorem claim_C1_zeroth_order_hold (values : List α) (events : List Int)
    (hlen : events.length = values.length + 1)
    (hsorted : events.Pairwise (· ≤ ·))
    (hnn : ∀ x ∈ events, 0 ≤ x)
    (d : Int) (i : Nat) (hi : i < values.length)
    (h1 : events.getD i 0 ≤ d) (h2 : d < events.getD (i + 1) 0) :
    (CategoricalData.ofValuesEvents values events).getitem d = values[i]?
      ∧ ∀ j, j < values.length → events.getD j 0 ≤ d →
          d < events.getD (j + 1) 0 → j = i := by
  constructor
  · have hp : searchsorted_right events d = i + 1 :=
      searchsorted_right_bracket hsorted (by omega) h1 h2
    have hlenI : (unique_inverse values).length = values.length :=
      List.length_map _ _
    rw [getitem_def, lookup_def, ofValuesEvents_events, ofValuesEvents_indices,
      ofValuesEvents_unique_values, hp]
    have hcond : ¬(i + 1 = 0 ∨ (unique_inverse values).length < i + 1) := by
      rw [hlenI]
      omega
    rw [if_neg hcond]
    have hstep : (unique_inverse values).get? (i + 1 - 1)
        = some (posOf values[i] (unique_in_order values)) := by
      rw [List.get?_eq_getElem?]
      have : i + 1 - 1 = i := by omega
      rw [this]
      unfold unique_inverse
      rw [List.getElem?_map, List.getElem?_eq_getElem hi]
      rfl
    rw [hstep]
    show (unique_in_order values).get? (posOf values[i] (unique_in_order values))
      = values[i]?
    rw [List.get?_eq_getElem?, unique_vocab_roundtrip hi,
      List.getElem?_eq_getElem hi]
  · intro j hj hj1 hj2
    by_contra hne
    rcases Nat.lt_or_ge j i with hlt | hge
    · have : events.getD (j + 1) 0 ≤ events.getD i 0 :=
        getD_mono_of_sorted hsorted (by omega) (by omega)
      omega
    · have hlt : i < j := by omega
      have : events.getD (i + 1) 0 ≤ events.getD j 0 :=
        getD_mono_of_sorted hsorted (by omega) (by omega)
      omega

/-- Witness for C1 at the concrete series `(['a','b','c'], [0,2,5,7])`,
dump 3 inside segment 1. -/
theorem claim_C1_witness :
    (CategoricalData.ofValuesEvents ["a", "b", "c"] [0, 2, 5, 7]).getitem 3
        = (["a", "b", "c"] : List String)[1]?
      ∧ ∀ j, j < (["a", "b", "c"] : List String).length →
          (([0, 2, 5, 7] : List Int)).getD j 0 ≤ 3 →
          (3 : Int) < ([0, 2, 5, 7] : List Int).getD (j + 1) 0 → j = 1 :=
  claim_C1_zeroth_order_hold ["a", "b", "c"] [0, 2, 5, 7] (by decide)
    (by decide) (by decide) 3 1 (by decide) (by decide) (by decide)

/-- C2: on any series satisfying the container invariants, single-dump lookup
fails with the out-of-range error exactly when `d < events[0]` or
`d ≥ events[-1]`; in particular the concrete series
`(['a','b','c'], [0,2,5,7])` yields 'a','a','b','c' at dumps 0,1,2,6 and
fails at dump 7. -/
theorem claim_C2_out_of_range (c : CategoricalData α)
    (hN : c.events.length = c.indices.length + 1)
    (hs : c.events.Pairwise (· ≤ ·)) (d : Int) :
    (c.lookup d = none ↔ d < c.events.getD 0 0 ∨ c.events.getLastD 0 ≤ d)
      ∧ ((CategoricalData.ofValuesEvents ["a", "b", "c"] [0, 2, 5, 7]).getitem 0
            = some "a"
        ∧ (CategoricalData.ofValuesEvents ["a", "b", "c"] [0, 2, 5, 7]).getitem 1
            = some "a"
        ∧ (CategoricalData.ofValuesEvents ["a", "b", "c"] [0, 2, 5, 7]).getitem 2
            = some "b"
        ∧ (CategoricalData.ofValuesEvents ["a", "b", "c"] [0, 2, 5, 7]).getitem 6
            = some "c"
        ∧ (CategoricalData.ofValuesEvents ["a", "b", "c"] [0, 2, 5, 7]).getitem 7
            = none) := by
  refine ⟨?_, by decide, by decide, by decide, by decide, by decide⟩
  have hne : c.events ≠ [] := by
    intro h
    rw [h] at hN
    simp at hN
  have hEne : 0 < c.events.length := List.length_pos.2 hne
  have hle : searchsorted_right c.events d ≤ c.events.length :=
    searchsorted_right_le_length _ _
  have hzero : searchsorted_right c.events d = 0 ↔ d < c.events.getD 0 0 := by
    rw [searchsorted_right_eq_zero]
    constructor
    · intro h
      exact h _ (getD_mem 0 hEne)
    · intro h x hx
      exact lt_of_lt_of_le h (getD_zero_le_of_sorted hs hx)
  have hover : c.indices.length < searchsorted_right c.events d
      ↔ c.events.getLastD 0 ≤ d := by
    constructor
    · intro h
      have : searchsorted_right c.events d = c.events.length := by omega
      exact searchsorted_right_eq_length.1 this _ (getLastD_mem 0 hne)
    · intro h
      have : searchsorted_right c.events d = c.events.length :=
        searchsorted_right_eq_length.2
          (fun x hx => le_trans (le_getLastD_of_sorted hs hx) h)
      omega
  rw [lookup_def]
  by_cases hcond : searchsorted_right c.events d = 0
      ∨ c.indices.length < searchsorted_right c.events d
  · rw [if_pos hcond]
    simp only [true_iff]
    rcases hcond with h | h
    · exact Or.inl (hzero.1 h)
    · exact Or.inr (hover.1 h)
  · rw [if_neg hcond]
    push_neg at hcond
    have hlt : searchsorted_right c.events d - 1 < c.indices.length := by
      omega
    rw [List.get?_eq_getElem?, List.getElem?_eq_getElem hlt]
    constructor
    · intro h
      exact absurd h (by simp)
    · intro hor
      exfalso
      rcases hor with h | h
      · exact hcond.1 (hzero.2 h)
      · have := hover.2 h
        omega

/-- Witness for C2 at the concrete series and dump 7 (out of range above). -/
theorem claim_C2_witness :
    ((CategoricalData.ofValuesEvents ["a", "b", "c"] [0, 2, 5, 7]).lookup 7
        = none
      ↔ (7 : Int) < ([0, 2, 5, 7] : List Int).getD 0 0
        ∨ ([0, 2, 5, 7] : List Int).getLastD 0 ≤ 7) :=
  (claim_C2_out_of_range
    (CategoricalData.ofValuesEvents ["a", "b", "c"] [0, 2, 5, 7])
    (by decide) (by decide) 7).1

/-- C3 counterexample: the claim asserts that a shape mismatch
(`len(events) ≠ len(values) + 1`) makes the constructor fail, but the
constructor of `categorical.py` performs no validation at all: with one value
and four events it happily produces a populated container. -/
theorem claim_C3_counterexample :
    (([0, 1, 2, 9] : List Int)).length ≠ (["a"] : List String).length + 1
      ∧ CategoricalData.ofValuesEvents ["a"] [0, 1, 2, 9]
          = CategoricalData.mk ["a"] [0] [0, 1, 2, 9] := by
  constructor
  · decide
  · decide

/-- C3 amended: the constructor performs no shape validation; for any input
with `len(events) ≠ len(values) + 1` it still returns a container, whose
stored arrays simply violate the `len(events) = len(indices) + 1` invariant
instead of an error being raised. -/
theorem claim_C3_amended (values : List α) (events : List Int)
    (h : events.length ≠ values.length + 1) :
    (CategoricalData.ofValuesEvents values events).events.length
      ≠ (CategoricalData.ofValuesEvents values events).indices.length + 1 := by
  unfold CategoricalData.ofValuesEvents unique_inverse
  simpa using h

/-- Witness for the amended C3 at the mismatched input `(["a"], [0,1,2,9])`. -/
theorem claim_C3_witness :
    (CategoricalData.ofValuesEvents (α := String) ["a"] [0, 1, 2, 9]).events.length
      ≠ (CategoricalData.ofValuesEvents (α := String)
          ["a"] [0, 1, 2, 9]).indices.length + 1 :=
  claim_C3_amended ["a"] [0, 1, 2, 9] (by decide)

/-- C10: `remove_repeats` on a series with zero segments (empty `indices`,
a single sentinel event) fails with an indexing error (modelled as `none`)
instead of being a no-op, because `changes = [0]` is selected from the empty
`indices` array. -/
theorem claim_C10_remove_repeats_empty (c : CategoricalData α)
    (hidx : c.indices = []) (hev : c.events.length = 1) :
    c.remove_repeats = none := by
  unfold CategoricalData.remove_repeats
  rw [if_pos hidx]

/-- Witness for C10 on the empty series `([], [0])`. -/
theorem claim_C10_witness :
    (CategoricalData.ofValuesEvents (α := String) [] [0]).remove_repeats
      = none :=
  claim_C10_remove_repeats_empty _ (by decide) (by decide)

/-! ## C7: the greedy boundary shift -/

theorem greedy_shift_from_getElem? (values greedy : List α) :
    ∀ (events : List Int) (k j : Nat),
      (greedy_shift_from values greedy k events)[j]?
        = (events[j]?).map (fun e =>
            if 1 ≤ k + j ∧ k + j < values.length
                ∧ greedy_to_nongreedy values greedy (k + j) = true
            then e + 1 else e)
  | [], _, _ => by simp [greedy_shift_from]
  | e :: rest, k, 0 => by
    simp [greedy_shift_from]
  | e :: rest, k, j + 1 => by
    rw [greedy_shift_from]
    rw [List.getElem?_cons_succ, List.getElem?_cons_succ,
      greedy_shift_from_getElem? values greedy rest (k + 1) j]
    have harith : k + 1 + j = k + (j + 1) := by omega
    rw [harith]

/-- C7: in the greedy step of `sensor_to_categorical`, a boundary whose value
changes from a greedy value to a non-greedy one is shifted one dump later,
and every other boundary (including non-greedy-to-greedy changes) is kept;
concretely, with greedy value 'slew', the 'track'→'slew' boundary at dump 4
stays at 4 while the 'slew'→'track' boundary at dump 6 moves to dump 7. -/
theorem claim_C7_greedy_shift (values greedy : List α) (events : List Int)
    (n : Nat) (a b : α) (h1 : 1 ≤ n) (h2 : n < values.length)
    (ha : values[n - 1]? = some a) (hb : values[n]? = some b) :
    ((greedy_shift values greedy events)[n]?
        = if a ∈ greedy ∧ b ∉ greedy
          then (events[n]?).map (fun e => e + 1) else events[n]?)
      ∧ greedy_shift ["track", "slew", "track"] ["slew"] [0, 4, 6, 9]
          = [0, 4, 7, 9] := by
  refine ⟨?_, by decide⟩
  unfold greedy_shift
  rw [greedy_shift_from_getElem? values greedy events 0 n]
  have hg : greedy_to_nongreedy values greedy n
      = (decide (a ∈ greedy) && decide (b ∉ greedy)) := by
    unfold greedy_to_nongreedy
    rw [List.get?_eq_getElem?, List.get?_eq_getElem?, ha, hb]
  have hzn : 0 + n = n := by omega
  rw [hzn, hg]
  by_cases hab : a ∈ greedy ∧ b ∉ greedy
  · rw [if_pos hab]
    have hcond : (1 ≤ n ∧ n < values.length
        ∧ (decide (a ∈ greedy) && decide (b ∉ greedy)) = true) := by
      refine ⟨h1, h2, ?_⟩
      simp [hab.1, hab.2]
    cases hEv : events[n]? with
    | none => rfl
    | some e =>
      show some (if 1 ≤ n ∧ n < values.length
          ∧ (decide (a ∈ greedy) && decide (b ∉ greedy)) = true
        then e + 1 else e) = some (e + 1)
      rw [if_pos hcond]
  · rw [if_neg hab]
    have hcond : ¬(1 ≤ n ∧ n < values.length
        ∧ (decide (a ∈ greedy) && decide (b ∉ greedy)) = true) := by
      rintro ⟨-, -, hdec⟩
      rcases Bool.and_eq_true_iff.1 hdec with ⟨hda, hdb⟩
      exact hab ⟨of_decide_eq_true hda, of_decide_eq_true hdb⟩
    cases hEv : events[n]? with
    | none => rfl
    | some e =>
      show some (if 1 ≤ n ∧ n < values.length
          ∧ (decide (a ∈ greedy) && decide (b ∉ greedy)) = true
        then e + 1 else e) = some e
      rw [if_neg hcond]

/-- Witness for C7 at the concrete greedy scenario (`n = 2`, the
'slew'→'track' transition at dump 6 moves to dump 7). -/
theorem claim_C7_witness :
    ((greedy_shift ["track", "slew", "track"] ["slew"] [0, 4, 6, 9])[2]?
        = if "slew" ∈ ["slew"] ∧ "track" ∉ ["slew"]
          then ((([0, 4, 6, 9] : List Int))[2]?).map (fun e => e + 1)
          else ([0, 4, 6, 9] : List Int)[2]?)
      ∧ greedy_shift ["track", "slew", "track"] ["slew"] [0, 4, 6, 9]
          = [0, 4, 7, 9] :=
  claim_C7_greedy_shift ["track", "slew", "track"] ["slew"] [0, 4, 6, 9]
    2 "slew" "track" (by decide) (by decide) (by decide) (by decide)

/-! ## C8: `remove_repeats` is idempotent -/

theorem collapseRuns_head :
    ∀ {l : List (Nat × Int)} {prev : Option Nat} {q : Nat × Int},
      (collapseRuns l prev).head? = some q → prev ≠ some q.1
  | [], prev, q => by simp [collapseRuns]
  | p :: rest, prev, q => by
    by_cases hp : prev = some p.1
    · rw [collapseRuns, if_pos hp]
      intro h
      have := collapseRuns_head h
      rw [hp]
      exact this
    · rw [collapseRuns, if_neg hp]
      intro h
      have hq : p = q := by simpa using h
      rw [← hq]
      exact hp

theorem collapseRuns_chain' :
    ∀ (l : List (Nat × Int)) (prev : Option Nat),
      List.Chain' (fun p q => p.1 ≠ q.1) (collapseRuns l prev)
  | [], _ => List.chain'_nil
  | p :: rest, prev => by
    by_cases hp : prev = some p.1
    · rw [collapseRuns, if_pos hp]
      exact collapseRuns_chain' rest _
    · rw [collapseRuns, if_neg hp]
      refine List.chain'_cons'.2 ⟨?_, collapseRuns_chain' rest _⟩
      intro y hy
      have := collapseRuns_head hy
      intro hc
      exact this (by rw [hc])

theorem collapseRuns_fix :
    ∀ {l : List (Nat × Int)} {prev : Option Nat},
      List.Chain' (fun p q => p.1 ≠ q.1) l →
      (∀ q, l.head? = some q → prev ≠ some q.1) →
      collapseRuns l prev = l
  | [], _, _, _ => rfl
  | p :: rest, prev, hchain, hhead => by
    have hp : prev ≠ some p.1 := hhead p rfl
    rw [collapseRuns, if_neg hp]
    rcases List.chain'_cons'.1 hchain with ⟨hrel, hrest⟩
    have : collapseRuns rest (some p.1) = rest := by
      refine collapseRuns_fix hrest ?_
      intro q hq hc
      have : p.1 ≠ q.1 := hrel q hq
      exact this (by injection hc)
    rw [this]

theorem collapseRuns_none_ne_nil :
    ∀ {l : List (Nat × Int)}, l ≠ [] → collapseRuns l none ≠ []
  | [], h => absurd rfl h
  | p :: rest, _ => by
    rw [collapseRuns, if_neg (by simp)]
    simp

/-- C8: on any series with at least one segment (and the length invariant),
`remove_repeats` succeeds and applying it a second time returns the same
(indices, events) state; and a series that already has no two consecutive
equal indices is returned unchanged. -/
theorem claim_C8_remove_repeats_idempotent (c : CategoricalData α)
    (hN : c.events.length = c.indices.length + 1) (hne : c.indices ≠ []) :
    (∃ c2, c.remove_repeats = some c2 ∧ c2.remove_repeats = some c2)
      ∧ (List.Chain' (· ≠ ·) c.indices → c.remove_repeats = some c) := by
  obtain ⟨V, I, E⟩ := c
  simp only at hN hne
  have hIlen : 0 < I.length := List.length_pos.2 hne
  have hE'len : E.dropLast.length = I.length := by
    rw [List.length_dropLast, hN]
    omega
  have hEne : E ≠ [] := by
    intro h
    rw [h] at hN
    simp at hN
  have hpairs_ne : I.zip E.dropLast ≠ [] := by
    rw [← List.length_pos, List.length_zip, hE'len]
    omega
  constructor
  · set kept := collapseRuns (I.zip E.dropLast) none with hkept
    have hkept_ne : kept ≠ [] := collapseRuns_none_ne_nil hpairs_ne
    refine ⟨⟨V, kept.map Prod.fst, kept.map Prod.snd ++ [E.getLastD 0]⟩, ?_, ?_⟩
    · unfold CategoricalData.remove_repeats
      rw [if_neg hne]
    · unfold CategoricalData.remove_repeats
      have hne2 : kept.map Prod.fst ≠ [] := by
        intro h
        exact hkept_ne (List.map_eq_nil_iff.1 h)
      rw [if_neg hne2]
      have hdrop : (kept.map Prod.snd ++ [E.getLastD 0]).dropLast
          = kept.map Prod.snd := List.dropLast_concat
      have hzip : (kept.map Prod.fst).zip (kept.map Prod.snd) = kept := by
        rw [List.zip_map' Prod.fst Prod.snd kept]
        simp
      have hfix : collapseRuns kept none = kept :=
        collapseRuns_fix (collapseRuns_chain' _ _) (fun q _ => by simp)
      simp only [hdrop, hzip, hfix]
      rw [List.getLastD_concat]
  · intro hchain
    unfold CategoricalData.remove_repeats
    rw [if_neg hne]
    have hfst : (I.zip E.dropLast).map Prod.fst = I :=
      List.map_fst_zip _ _ (by omega)
    have hsnd : (I.zip E.dropLast).map Prod.snd = E.dropLast :=
      List.map_snd_zip _ _ (by omega)
    have hchainP : List.Chain' (fun p q : Nat × Int => p.1 ≠ q.1)
        (I.zip E.dropLast) := by
      have h1 : List.Chain' (fun a b : Nat => a ≠ b)
          ((I.zip E.dropLast).map Prod.fst) := by
        rw [hfst]
        exact hchain
      exact (List.chain'_map Prod.fst).1 h1
    have hfix : collapseRuns (I.zip E.dropLast) none = I.zip E.dropLast :=
      collapseRuns_fix hchainP (fun q _ => by simp)
    simp only [hfix, hfst, hsnd]
    rw [events_decomp hEne]

/-- Witness for C8 on the series `(['a','a','b'], [0,2,5,7])` (indices
`[0,0,1]`, one repeated segment). -/
theorem claim_C8_witness :
    (∃ c2, (CategoricalData.ofValuesEvents ["a", "a", "b"]
          [0, 2, 5, 7]).remove_repeats = some c2
        ∧ c2.remove_repeats = some c2)
      ∧ (List.Chain' (· ≠ ·)
            (CategoricalData.ofValuesEvents ["a", "a", "b"]
              [0, 2, 5, 7]).indices →
          (CategoricalData.ofValuesEvents ["a", "a", "b"]
            [0, 2, 5, 7]).remove_repeats
            = some (CategoricalData.ofValuesEvents ["a", "a", "b"]
                [0, 2, 5, 7])) :=
  claim_C8_remove_repeats_idempotent _ (by decide) (by decide)

/-! ## C9: `remove` of a unique first-segment value orphans its dumps -/

theorem posOf_getElem_nodup :
    ∀ {l : List α}, l.Nodup → ∀ {i : Nat} (hi : i < l.length),
      posOf l[i] l = i
  | y :: ys, hnd, 0, hi => by simp [posOf]
  | y :: ys, hnd, i + 1, hi => by
    have hi' : i < ys.length := by simpa using hi
    have hyne : y ≠ ys[i] := by
      intro h
      exact (List.nodup_cons.1 hnd).1 (h ▸ List.getElem_mem hi')
    have : (y :: ys)[i + 1] = ys[i] := List.getElem_cons_succ ..
    rw [this]
    simp only [posOf, if_neg hyne]
    rw [posOf_getElem_nodup (List.nodup_cons.1 hnd).2 hi']

/-- C9: on a series with at least two segments whose first segment's value
occurs in no other segment, `remove` of that value drops the initial
boundary, so `events[0]` becomes the former `events[1]`, and every
single-dump lookup of a dump in the former first segment
`[events[0], events[1])` afterwards fails with the out-of-range error: the
first segment's dumps are not merged anywhere but become unqueryable. -/
theorem claim_C9_remove_first_value (c : CategoricalData α) (v : α)
    (i0 : Nat) (rest : List Nat)
    (hN : c.events.length = c.indices.length + 1)
    (hs : c.events.Pairwise (· ≤ ·))
    (hidx : c.indices = i0 :: rest) (hrest : i0 ∉ rest) (hrne : rest ≠ [])
    (hnd : c.unique_values.Nodup)
    (hv : c.unique_values[i0]? = some v) :
    (c.remove v).events.head? = c.events[1]?
      ∧ ∀ d : Int, c.events.getD 0 0 ≤ d → d < c.events.getD 1 0 →
          (c.remove v).lookup d = none := by
  obtain ⟨V, I, E⟩ := c
  simp only at hN hs hidx hnd hv ⊢
  subst hidx
  rcases List.getElem?_eq_some_iff.1 hv with ⟨hi0, hVi0⟩
  have hvmem : v ∈ V := hVi0 ▸ List.getElem_mem hi0
  have hpos : posOf v V = i0 := by
    rw [← hVi0]
    exact posOf_getElem_nodup hnd hi0
  obtain ⟨i1, rest2, rfl⟩ : ∃ i1 rest2, rest = i1 :: rest2 := by
    match rest, hrne with
    | r :: rs, _ => exact ⟨r, rs, rfl⟩
  obtain ⟨e0, e1, E2, rfl⟩ : ∃ e0 e1 E2, E = e0 :: e1 :: E2 := by
    match E, hN with
    | a :: b :: t, _ => exact ⟨a, b, t, rfl⟩
  have hi1 : i1 ≠ i0 := fun h => hrest (h ▸ List.mem_cons_self _ _)
  have hremove : CategoricalData.remove ⟨V, i0 :: i1 :: rest2, e0 :: e1 :: E2⟩ v
      = { unique_values := V.eraseIdx i0
          indices := (((i1 :: rest2).zip ((e1 :: E2).dropLast)).filter
              (fun p => decide (p.1 ≠ i0))).map
            (fun p => if i0 ≤ p.1 then p.1 - 1 else p.1)
          events := (((i1 :: rest2).zip ((e1 :: E2).dropLast)).filter
              (fun p => decide (p.1 ≠ i0))).map (fun p => p.2)
            ++ [(e0 :: e1 :: E2).getLastD 0] } := by
    unfold CategoricalData.remove
    rw [if_pos hvmem]
    simp only [hpos]
    have hdl : (e0 :: e1 :: E2).dropLast = e0 :: (e1 :: E2).dropLast := rfl
    rw [hdl, List.zip_cons_cons, List.filter_cons]
    rw [if_neg (by simp)]
  rw [hremove]
  have hE1sorted : (e1 :: E2).Pairwise (· ≤ ·) := (List.pairwise_cons.1 hs).2
  have hkept_snd_ge : ∀ p ∈ ((i1 :: rest2).zip ((e1 :: E2).dropLast)).filter
      (fun p => decide (p.1 ≠ i0)), e1 ≤ p.2 := by
    intro p hp
    have hmem := (List.mem_filter.1 hp).1
    have hsnd : p.2 ∈ (e1 :: E2).dropLast := (List.of_mem_zip hmem).2
    have hsnd' : p.2 ∈ e1 :: E2 :=
      List.Sublist.mem hsnd (List.dropLast_sublist _)
    rcases List.mem_cons.1 hsnd' with h | h
    · omega
    · exact List.rel_of_pairwise_cons hE1sorted h
  constructor
  · have hfil : ((i1 :: rest2).zip ((e1 :: E2).dropLast)).filter
        (fun p => decide (p.1 ≠ i0))
        = (i1, e1) :: ((rest2.zip (E2.dropLast.cons e1).tail).filter
            (fun p => decide (p.1 ≠ i0))) := by
      cases E2 with
      | nil =>
        simp at hN
      | cons e2 E3 =>
        have hdl2 : (e1 :: e2 :: E3).dropLast = e1 :: (e2 :: E3).dropLast := rfl
        rw [hdl2, List.zip_cons_cons, List.filter_cons, if_pos (by simp [hi1])]
        rfl
    rw [hfil]
    simp
  · intro d hd0 hd1
    have hd1' : d < e1 := by simpa using hd1
    rw [lookup_def]
    have hz : searchsorted_right
        ((((i1 :: rest2).zip ((e1 :: E2).dropLast)).filter
            (fun p => decide (p.1 ≠ i0))).map (fun p => p.2)
          ++ [(e0 :: e1 :: E2).getLastD 0]) d = 0 := by
      apply searchsorted_right_eq_zero.2
      intro x hx
      rcases List.mem_append.1 hx with h | h
      · rcases List.mem_map.1 h with ⟨p, hp, hpx⟩
        have := hkept_snd_ge p hp
        omega
      · have hxl : x = (e0 :: e1 :: E2).getLastD 0 := List.mem_singleton.1 h
        have he1mem : e1 ∈ e0 :: e1 :: E2 :=
          List.mem_cons_of_mem _ (List.mem_cons_self _ _)
        have := le_getLastD_of_sorted hs he1mem
        omega
    rw [hz]
    simp

/-- Witness for C9 on `(['a','b','c'], [0,2,5,7])` with first value 'a'. -/
theorem claim_C9_witness :
    ((CategoricalData.ofValuesEvents ["a", "b", "c"]
          [0, 2, 5, 7]).remove "a").events.head?
        = (CategoricalData.ofValuesEvents ["a", "b", "c"]
            [0, 2, 5, 7]).events[1]?
      ∧ ∀ d : Int,
          (CategoricalData.ofValuesEvents ["a", "b", "c"]
              [0, 2, 5, 7]).events.getD 0 0 ≤ d →
          d < (CategoricalData.ofValuesEvents ["a", "b", "c"]
              [0, 2, 5, 7]).events.getD 1 0 →
          ((CategoricalData.ofValuesEvents ["a", "b", "c"]
              [0, 2, 5, 7]).remove "a").lookup d = none :=
  claim_C9_remove_first_value _ "a" 0 [1, 2] (by decide) (by decide)
    (by decide) (by decide) (by decide) (by decide) (by decide)

/-! ## C4: `remove` merges orphaned segments into the preceding segment -/

theorem stepIdx_map_fst (f : Nat → Nat) :
    ∀ (pairs : List (Nat × Int)) (d : Int),
      stepIdx (pairs.map (fun p => (f p.1, p.2))) d
        = (stepIdx pairs d).map f
  | [], _ => rfl
  | p :: rest, d => by
    by_cases hp : p.2 ≤ d
    · rw [List.map_cons]
      have hrec := stepIdx_map_fst f rest d
      simp only [stepIdx, hp, if_true, if_pos]
      rw [hrec]
      cases stepIdx rest d <;> rfl
    · simp [stepIdx, hp]

theorem stepIdx_mem_fst :
    ∀ {pairs : List (Nat × Int)} {d : Int} {v : Nat},
      stepIdx pairs d = some v → v ∈ pairs.map Prod.fst
  | [], d, v => by
    intro h
    simp [stepIdx] at h
  | p :: rest, d, v => by
    by_cases hp : p.2 ≤ d
    · simp only [stepIdx, hp, if_true, if_pos]
      intro h
      have hv : v = (stepIdx rest d).getD p.1 := by
        injection h
        omega
      cases hrest : stepIdx rest d with
      | none =>
        rw [hrest] at hv
        simp at hv
        rw [hv, List.map_cons]
        exact List.mem_cons_self _ _
      | some w =>
        rw [hrest] at hv
        simp at hv
        rw [hv, List.map_cons]
        exact List.mem_cons_of_mem _ (stepIdx_mem_fst hrest)
    · simp [stepIdx, hp]

theorem length_filter_zip_fst :
    ∀ {I : List Nat} {E : List Int}, I.length = E.length → ∀ (p : Nat → Bool),
      ((I.zip E).filter (fun q => p q.1)).length = (I.filter p).length
  | [], [], _, _ => rfl
  | i :: I', e :: E', hlen, p => by
    have hlen' : I'.length = E'.length := by simpa using hlen
    rw [List.zip_cons_cons, List.filter_cons, List.filter_cons]
    by_cases hp : p i
    · simp only [hp, if_pos, if_true]
      simp [length_filter_zip_fst hlen' p]
    · simp only [hp]
      simp [length_filter_zip_fst hlen' p]

theorem length_filter_ne_add_count (i : Nat) :
    ∀ (I : List Nat),
      (I.filter (fun j => decide (j ≠ i))).length + I.count i = I.length
  | [] => rfl
  | j :: I' => by
    have IH := length_filter_ne_add_count i I'
    rw [List.filter_cons, List.count_cons]
    by_cases hj : j = i
    · rw [if_neg (by simp [hj]), if_pos (by simp [hj])]
      simp only [List.length_cons]
      omega
    · rw [if_pos (by simpa using hj), if_neg (by simp [hj])]
      simp only [List.length_cons]
      omega

theorem eraseIdx_getElem?_remap {V : List α} {i v : Nat}
    (hv : v < V.length) (hne : v ≠ i) :
    (V.eraseIdx i)[if i ≤ v then v - 1 else v]? = V[v]? := by
  rw [List.getElem?_eraseIdx]
  by_cases h : i ≤ v
  · rw [if_pos h]
    have hvi : i < v := by omega
    rw [if_neg (by omega)]
    have : v - 1 + 1 = v := by omega
    rw [this]
  · rw [if_neg h, if_pos (by omega)]

/-- C4 counterexample: in `(['a','b','c'], [0,2,5,7])` the middle segment
`[2,5) -> 'b'` is removed; dump 3 then reads 'a' (the PRECEDING segment's
value), not 'c', so the removed segment is not merged into its next
segment as the claim states. -/
theorem claim_C4_counterexample :
    ((CategoricalData.ofValuesEvents ["a", "b", "c"]
          [0, 2, 5, 7]).remove "b").getitem 3 = some "a"
      ∧ ¬(((CategoricalData.ofValuesEvents ["a", "b", "c"]
          [0, 2, 5, 7]).remove "b").getitem 3 = some "c") := by
  constructor
  · decide
  · decide

theorem stepIdx_zip_remap (i : Nat) :
    ∀ (kept : List (Nat × Int)) (d : Int),
      stepIdx ((kept.map (fun p => if i ≤ p.1 then p.1 - 1 else p.1)).zip
          (kept.map (fun p => p.2))) d
        = (stepIdx kept d).map (fun j => if i ≤ j then j - 1 else j)
  | [], _ => rfl
  | p :: rest, d => by
    rw [List.map_cons, List.map_cons, List.zip_cons_cons]
    by_cases hp : p.2 ≤ d
    · have hrec := stepIdx_zip_remap i rest d
      simp only [stepIdx, hp, if_true, if_pos]
      rw [hrec]
      cases stepIdx rest d <;> rfl
    · simp [stepIdx, hp]

/-- C4 amended: `remove` of an absent value is a no-op; `remove` of a present
value deletes the vocabulary entry, decrements all indices above it, keeps
every index a valid index of the shrunken vocabulary, shrinks the event list
by exactly the number of segments that pointed at the removed value, keeps
the container invariant, and merges each removed segment into the PRECEDING
surviving segment: for every dump below the sentinel, lookup afterwards
returns the value of the last surviving original segment starting at or
before that dump (so a removed FIRST segment's dumps resolve to nothing). -/
theorem claim_C4_remove (c : CategoricalData α) (value : α)
    (hN : c.events.length = c.indices.length + 1)
    (hs : c.events.Pairwise (· ≤ ·))
    (hnd : c.unique_values.Nodup)
    (hidx : ∀ i ∈ c.indices, i < c.unique_values.length) :
    (value ∉ c.unique_values → c.remove value = c)
      ∧ (value ∈ c.unique_values →
          (c.remove value).unique_values
              = c.unique_values.eraseIdx (posOf value c.unique_values)
            ∧ (∀ j ∈ (c.remove value).indices,
                j < c.unique_values.length - 1)
            ∧ (c.remove value).events.length
                + c.indices.count (posOf value c.unique_values)
                = c.events.length
            ∧ (c.remove value).events.length
                = (c.remove value).indices.length + 1
            ∧ ∀ d : Int, d < c.events.getLastD 0 →
                (c.remove value).getitem d
                  = (stepIdx ((c.indices.zip c.events.dropLast).filter
                      (fun p => decide (p.1
                        ≠ posOf value c.unique_values))) d).bind
                      (fun j => c.unique_values[j]?)) := by
  obtain ⟨V, I, E⟩ := c
  simp only at hN hs hnd hidx ⊢
  constructor
  · intro hmem
    unfold CategoricalData.remove
    rw [if_neg hmem]
  · intro hmem
    have hiV : posOf value V < V.length := posOf_lt_length hmem
    have hremove : CategoricalData.remove ⟨V, I, E⟩ value
        = { unique_values := V.eraseIdx (posOf value V)
            indices := ((I.zip E.dropLast).filter
                (fun p => decide (p.1 ≠ posOf value V))).map
              (fun p => if posOf value V ≤ p.1 then p.1 - 1 else p.1)
            events := ((I.zip E.dropLast).filter
                (fun p => decide (p.1 ≠ posOf value V))).map (fun p => p.2)
              ++ [E.getLastD 0] } := by
      unfold CategoricalData.remove
      rw [if_pos hmem]
    have hEne : E ≠ [] := by
      intro h
      rw [h] at hN
      simp at hN
    have hE'len : E.dropLast.length = I.length := by
      rw [List.length_dropLast, hN]
      omega
    have hkept_mem : ∀ p ∈ (I.zip E.dropLast).filter
        (fun p => decide (p.1 ≠ posOf value V)),
        p.1 < V.length ∧ p.1 ≠ posOf value V := by
      intro p hp
      rcases List.mem_filter.1 hp with ⟨hpz, hpne⟩
      exact ⟨hidx _ (List.of_mem_zip hpz).1, by simpa using hpne⟩
    refine ⟨by rw [hremove], ?_, ?_, ?_, ?_⟩
    · intro j hj
      rw [hremove] at hj
      simp only at hj
      rcases List.mem_map.1 hj with ⟨p, hp, hpj⟩
      rcases hkept_mem p hp with ⟨hlt, hne⟩
      subst hpj
      by_cases hle : posOf value V ≤ p.1
      · rw [if_pos hle]
        omega
      · rw [if_neg hle]
        omega
    · rw [hremove]
      simp only [List.length_append, List.length_map, List.length_singleton]
      rw [length_filter_zip_fst hE'len.symm
        (fun j => decide (j ≠ posOf value V))]
      have h2 := length_filter_ne_add_count (posOf value V) I
      omega
    · rw [hremove]
      simp only [List.length_append, List.length_map, List.length_singleton]
    · intro d hd
      rw [hremove]
      set i := posOf value V with hidef
      set kept := (I.zip E.dropLast).filter
        (fun p => decide (p.1 ≠ i)) with hkeptdef
      have hsubE : (kept.map (fun p => p.2)).Sublist E := by
        have h1 : kept.Sublist (I.zip E.dropLast) := List.filter_sublist _
        have h2 : (kept.map (fun p => p.2)).Sublist
            ((I.zip E.dropLast).map (fun p => p.2)) := h1.map _
        have h3 : (I.zip E.dropLast).map (fun p => p.2) = E.dropLast := by
          have := List.map_snd_zip I E.dropLast (by omega)
          simpa using this
        rw [h3] at h2
        exact h2.trans (List.dropLast_sublist _)
      have hr_sorted : ((kept.map (fun p => p.2))
          ++ [E.getLastD 0]).Pairwise (· ≤ ·) := by
        refine List.pairwise_append.2
          ⟨List.Pairwise.sublist hsubE hs, List.pairwise_singleton _ _, ?_⟩
        intro x hx y hy
        have hxE : x ∈ E := hsubE.mem hx
        rw [List.mem_singleton.1 hy]
        exact le_getLastD_of_sorted hs hxE
      have hr_len : ((kept.map (fun p => p.2)) ++ [E.getLastD 0]).length
          = (kept.map (fun p => if i ≤ p.1 then p.1 - 1 else p.1)).length
            + 1 := by
        simp
      have hd' : d < ((kept.map (fun p => p.2))
          ++ [E.getLastD 0]).getLastD 0 := by
        rw [List.getLastD_concat]
        exact hd
      rw [getitem_def]
      have hlook := lookup_eq_stepIdx
        (c := { unique_values := V.eraseIdx i
                indices := kept.map (fun p => if i ≤ p.1 then p.1 - 1 else p.1)
                events := kept.map (fun p => p.2) ++ [E.getLastD 0] })
        hr_len hr_sorted hd'
      rw [hlook]
      show (stepIdx ((kept.map (fun p => if i ≤ p.1 then p.1 - 1 else p.1)).zip
          (((kept.map (fun p => p.2)) ++ [E.getLastD 0]).dropLast)) d).bind
            (fun j => (V.eraseIdx i).get? j)
        = (stepIdx kept d).bind (fun j => V[j]?)
      rw [List.dropLast_concat, stepIdx_zip_remap i kept d]
      cases hstep : stepIdx kept d with
      | none => rfl
      | some v =>
        have hvmem : v ∈ kept.map Prod.fst := stepIdx_mem_fst hstep
        rcases List.mem_map.1 hvmem with ⟨p, hp, hpv⟩
        rcases hkept_mem p hp with ⟨hlt, hne⟩
        have hvlt : v < V.length := hpv ▸ hlt
        have hvne : v ≠ i := hpv ▸ hne
        show (V.eraseIdx i).get? (if i ≤ v then v - 1 else v) = V[v]?
        rw [List.get?_eq_getElem?]
        exact eraseIdx_getElem?_remap hvlt hvne

/-- Witness for the amended C4 on `(['a','b','c'], [0,2,5,7])`, removing
'b': the vocabulary entry is deleted. -/
theorem claim_C4_witness :
    ((CategoricalData.ofValuesEvents ["a", "b", "c"]
          [0, 2, 5, 7]).remove "b").unique_values
      = (CategoricalData.ofValuesEvents ["a", "b", "c"]
          [0, 2, 5, 7]).unique_values.eraseIdx
          (posOf "b" (CategoricalData.ofValuesEvents ["a", "b", "c"]
            [0, 2, 5, 7]).unique_values) :=
  ((claim_C4_remove _ "b" (by decide) (by decide) (by decide)
    (by decide)).2 (by decide)).1

/-! ## C6: `align` machinery -/

theorem argminAbs_lt : ∀ {bs : List Int}, bs ≠ [] → ∀ (e : Int),
    argminAbs bs e < bs.length
  | b :: rest, _, e => by
    rw [argminAbs]
    by_cases hr : rest = []
    · rw [if_pos hr]
      simp
    · rw [if_neg hr]
      by_cases hd : (e - b).natAbs
          ≤ (e - rest.getD (argminAbs rest e) 0).natAbs
      · rw [if_pos hd]
        simp
      · rw [if_neg hd]
        have := argminAbs_lt hr e
        simpa using Nat.succ_lt_succ this

theorem argminAbs_min : ∀ (bs : List Int) (e : Int) (j : Nat),
    j < bs.length →
      (e - bs.getD (argminAbs bs e) 0).natAbs ≤ (e - bs.getD j 0).natAbs
  | [], _, j, hj => by simp at hj
  | b :: rest, e, j, hj => by
    rw [argminAbs]
    by_cases hr : rest = []
    · rw [if_pos hr]
      subst hr
      match j, hj with
      | 0, _ => exact le_refl _
    · rw [if_neg hr]
      by_cases hd : (e - b).natAbs
          ≤ (e - rest.getD (argminAbs rest e) 0).natAbs
      · rw [if_pos hd, List.getD_cons_zero]
        match j, hj with
        | 0, _ => exact le_refl _
        | j + 1, hj =>
          rw [List.getD_cons_succ]
          exact le_trans hd (argminAbs_min rest e j (by simpa using hj))
      · rw [if_neg hd, List.getD_cons_succ]
        match j, hj with
        | 0, _ =>
          rw [List.getD_cons_zero]
          omega
        | j + 1, hj =>
          rw [List.getD_cons_succ]
          exact argminAbs_min rest e j (by simpa using hj)

theorem argminAbs_first : ∀ (bs : List Int) (e : Int) (j : Nat),
    j < argminAbs bs e →
      (e - bs.getD (argminAbs bs e) 0).natAbs < (e - bs.getD j 0).natAbs
  | [], _, j, hj => by simp [argminAbs] at hj
  | b :: rest, e, j, hj => by
    rw [argminAbs] at hj ⊢
    by_cases hr : rest = []
    · rw [if_pos hr] at hj
      omega
    · rw [if_neg hr] at hj ⊢
      by_cases hd : (e - b).natAbs
          ≤ (e - rest.getD (argminAbs rest e) 0).natAbs
      · rw [if_pos hd] at hj
        omega
      · rw [if_neg hd] at hj ⊢
        rw [List.getD_cons_succ]
        match j, hj with
        | 0, _ =>
          rw [List.getD_cons_zero]
          omega
        | j + 1, hj =>
          rw [List.getD_cons_succ]
          exact argminAbs_first rest e j (by omega)

theorem snapTo_mem {bs : List Int} (h : bs ≠ []) (e : Int) :
    snapTo bs e ∈ bs :=
  getD_mem 0 (argminAbs_lt h e)

theorem getD_strict_mono_of_sorted {bs : List Int}
    (hbs : bs.Pairwise (· < ·)) {a b : Nat} (hab : a < b)
    (hb : b < bs.length) : bs.getD a 0 < bs.getD b 0 := by
  rw [getD_eq_getElem 0 (by omega), getD_eq_getElem 0 hb]
  exact List.pairwise_iff_getElem.1 hbs a b (by omega) hb hab

theorem snapTo_mono {bs : List Int} (hbs : bs.Pairwise (· < ·))
    (hne : bs ≠ []) {e e2 : Int} (he : e ≤ e2) :
    snapTo bs e ≤ snapTo bs e2 := by
  by_contra hc
  push_neg at hc
  unfold snapTo at hc
  set j := argminAbs bs e with hj
  set j2 := argminAbs bs e2 with hj2
  have hjlt : j < bs.length := argminAbs_lt hne e
  have hj2lt : j2 < bs.length := argminAbs_lt hne e2
  have hj2j : j2 < j := by
    by_contra hle
    push_neg at hle
    rcases Nat.eq_or_lt_of_le hle with h | h
    · rw [h] at hc
      omega
    · have := getD_strict_mono_of_sorted hbs h hj2lt
      omega
  have h1 : (e - bs.getD j 0).natAbs < (e - bs.getD j2 0).natAbs :=
    argminAbs_first bs e j2 hj2j
  have h2 : (e2 - bs.getD j2 0).natAbs ≤ (e2 - bs.getD j 0).natAbs :=
    argminAbs_min bs e2 j hjlt
  omega

theorem posOf_strict_mono {bs : List Int} (hbs : bs.Pairwise (· < ·))
    {x y : Int} (hx : x ∈ bs) (hy : y ∈ bs) (hxy : x < y) :
    posOf x bs < posOf y bs := by
  induction bs with
  | nil => exact absurd hx (List.not_mem_nil _)
  | cons c rest ih =>
    by_cases hcx : c = x
    · have hcy : c ≠ y := by omega
      have hymem : y ∈ rest := by
        rcases List.mem_cons.1 hy with h | h
        · exact absurd h.symm hcy
        · exact h
      simp [posOf, hcx, hcy, show x ≠ y by omega]
    · have hxrest : x ∈ rest := by
        rcases List.mem_cons.1 hx with h | h
        · exact absurd h.symm hcx
        · exact h
      have hcy : c ≠ y := by
        intro h
        have := List.rel_of_pairwise_cons hbs hxrest
        omega
      have hyrest : y ∈ rest := by
        rcases List.mem_cons.1 hy with h | h
        · exact absurd h.symm hcy
        · exact h
      have := ih ((List.pairwise_cons.1 hbs).2) hxrest hyrest
      simp [posOf, hcx, hcy]
      omega

theorem mem_insertSortedNat {y x : Nat} :
    ∀ {l : List Nat}, y ∈ insertSortedNat x l ↔ y = x ∨ y ∈ l
  | [] => by simp [insertSortedNat]
  | z :: zs => by
    rw [insertSortedNat]
    by_cases h1 : x < z
    · rw [if_pos h1]
      simp
    · rw [if_neg h1]
      by_cases h2 : x = z
      · rw [if_pos h2]
        subst h2
        constructor
        · intro h
          exact Or.inr h
        · intro h
          rcases h with h | h
          · exact h ▸ List.mem_cons_self _ _
          · exact h
      · rw [if_neg h2]
        constructor
        · intro h
          rcases List.mem_cons.1 h with h | h
          · exact Or.inr (h ▸ List.mem_cons_self _ _)
          · rcases mem_insertSortedNat.1 h with h | h
            · exact Or.inl h
            · exact Or.inr (List.mem_cons_of_mem _ h)
        · intro h
          rcases h with h | h
          · exact List.mem_cons_of_mem _ (mem_insertSortedNat.2 (Or.inl h))
          · rcases List.mem_cons.1 h with h | h
            · exact h ▸ List.mem_cons_self _ _
            · exact List.mem_cons_of_mem _ (mem_insertSortedNat.2 (Or.inr h))

theorem sorted_insertSortedNat {x : Nat} :
    ∀ {l : List Nat}, l.Pairwise (· < ·) →
      (insertSortedNat x l).Pairwise (· < ·)
  | [], _ => List.pairwise_singleton _ _
  | z :: zs, h => by
    rw [insertSortedNat]
    by_cases h1 : x < z
    · rw [if_pos h1]
      refine List.pairwise_cons.2 ⟨?_, h⟩
      intro b hb
      rcases List.mem_cons.1 hb with h' | h'
      · omega
      · have := List.rel_of_pairwise_cons h h'
        omega
    · rw [if_neg h1]
      by_cases h2 : x = z
      · rw [if_pos h2]
        exact h
      · rw [if_neg h2]
        rcases List.pairwise_cons.1 h with ⟨hz, hzs⟩
        refine List.pairwise_cons.2 ⟨?_, sorted_insertSortedNat hzs⟩
        intro b hb
        rcases mem_insertSortedNat.1 hb with h' | h'
        · omega
        · exact hz b h'

theorem np_unique_sorted (l : List Nat) : (np_unique l).Pairwise (· < ·) := by
  induction l with
  | nil => exact List.Pairwise.nil
  | cons x xs ih => exact sorted_insertSortedNat ih

theorem mem_np_unique {y : Nat} : ∀ {l : List Nat}, y ∈ np_unique l ↔ y ∈ l
  | [] => Iff.rfl
  | x :: xs => by
    show y ∈ insertSortedNat x (np_unique xs) ↔ _
    rw [mem_insertSortedNat, mem_np_unique]
    simp

theorem filterMap_getElem?_all_some {A B : Type} (f : A → Option B) :
    ∀ (l : List A), (∀ x ∈ l, (f x).isSome) → ∀ (k : Nat),
      (l.filterMap f)[k]? = (l[k]?).bind f
  | [], _, k => by simp
  | x :: l, h, k => by
    have hx : (f x).isSome := h x (List.mem_cons_self _ _)
    rcases Option.isSome_iff_exists.1 hx with ⟨b, hb⟩
    rw [List.filterMap_cons_some hb]
    match k with
    | 0 => simp [hb]
    | k + 1 =>
      rw [List.getElem?_cons_succ, List.getElem?_cons_succ,
        filterMap_getElem?_all_some f l
          (fun y hy => h y (List.mem_cons_of_mem _ hy)) k]

theorem zip_eq_range_map {A B : Type} (da : A) (db : B) :
    ∀ (xs : List A) (ys : List B), xs.length = ys.length →
      xs.zip ys
        = (List.range xs.length).map (fun k => (xs.getD k da, ys.getD k db))
  | [], [], _ => rfl
  | x :: xs, y :: ys, hlen => by
    have hlen' : xs.length = ys.length := by simpa using hlen
    rw [List.zip_cons_cons, zip_eq_range_map da db xs ys hlen']
    rw [List.length_cons, List.range_succ_eq_map]
    rw [List.map_cons, List.map_map]
    simp only [List.getD_cons_zero]
    congr 1

theorem countAsc_eq_filter_range :
    ∀ (S : List Int),
      ((List.range (S.length - 1)).filter
          (fun k => decide (S.getD k 0 < S.getD (k + 1) 0))).length
        = countAsc S
  | [] => rfl
  | [a] => rfl
  | a :: b :: t => by
    have IH := countAsc_eq_filter_range (b :: t)
    rw [countAsc]
    have hlen : (a :: b :: t).length - 1 = ((b :: t).length - 1) + 1 := by
      simp
    rw [hlen, List.range_succ_eq_map, List.filter_cons, List.filter_map]
    have hcomp : ((fun k => decide ((a :: b :: t).getD k 0
          < (a :: b :: t).getD (k + 1) 0)) ∘ Nat.succ)
        = (fun k => decide ((b :: t).getD k 0 < (b :: t).getD (k + 1) 0)) := by
      funext k
      simp [Function.comp, List.getD_cons_succ]
    rw [hcomp]
    by_cases hab : a < b
    · rw [if_pos (by simpa using hab), if_pos hab]
      simp only [List.length_cons, List.length_map] at IH ⊢
      omega
    · rw [if_neg (by simpa using hab), if_neg hab]
      simp only [List.length_cons, List.length_map] at IH ⊢
      omega

theorem getD_tail {β : Type} (l : List β) (k : Nat) (d : β) :
    l.tail.getD k d = l.getD (k + 1) d := by
  rw [List.getD_eq_getElem?_getD, List.getD_eq_getElem?_getD,
    List.getElem?_tail]

theorem getD_zip {A B : Type} (da : A) (db : B) {xs : List A} {ys : List B}
    {k : Nat} (hk : k < xs.length) (hk2 : k < ys.length) :
    (xs.zip ys).getD k (da, db) = (xs.getD k da, ys.getD k db) := by
  have hkz : k < (xs.zip ys).length := by
    rw [List.length_zip]
    exact lt_min hk hk2
  rw [getD_eq_getElem (da, db) hkz, List.getElem_zip,
    getD_eq_getElem da hk, getD_eq_getElem db hk2]

theorem countAsc_bound {bs : List Int} (hbs : bs.Pairwise (· < ·)) :
    ∀ (S : List Int) {h : Int}, S.Chain' (· ≤ ·) → (∀ x ∈ S, x ∈ bs) →
      S.head? = some h → countAsc S + posOf h bs + 1 ≤ bs.length := by
  intro S
  induction S with
  | nil =>
    intro h _ _ hh
    simp at hh
  | cons a T ih =>
    intro h hchain hmem hh
    have ha : a = h := by simpa using hh
    subst ha
    cases T with
    | nil =>
      have := posOf_lt_length (hmem a (List.mem_cons_self _ _))
      simp only [countAsc]
      omega
    | cons b t =>
      rcases List.chain'_cons.1 hchain with ⟨hab_le, hchain2⟩
      have hmem2 : ∀ x ∈ b :: t, x ∈ bs :=
        fun x hx => hmem x (List.mem_cons_of_mem _ hx)
      have IH := ih hchain2 hmem2 rfl
      by_cases hab : a < b
      · have hpos := posOf_strict_mono hbs (hmem a (List.mem_cons_self _ _))
          (hmem2 b (List.mem_cons_self _ _)) hab
        rw [countAsc, if_pos hab]
        omega
      · have heq : a = b := by omega
        rw [countAsc, if_neg hab, heq]
        omega

theorem align_kept_positional {I : List Nat} {S : List Int}
    (hlen : S.length = I.length + 1) :
    (I.zip (S.zip S.tail)).filter (fun p => decide (p.2.1 < p.2.2))
      = ((List.range I.length).filter
          (fun k => decide (S.getD k 0 < S.getD (k + 1) 0))).map
          (fun k => (I.getD k 0, (S.getD k 0, S.getD (k + 1) 0))) := by
  have htail_len : S.tail.length = I.length := by
    rw [List.length_tail, hlen]
    omega
  have hzt_len : I.length = (S.zip S.tail).length := by
    rw [List.length_zip, hlen, htail_len]
    have hmin : min (I.length + 1) I.length = I.length := by omega
    simpa using hmin.symm
  rw [zip_eq_range_map (0 : Nat) ((0 : Int), (0 : Int)) I (S.zip S.tail)
    hzt_len, List.filter_map]
  have hg : ∀ k, k < I.length →
      (S.zip S.tail).getD k ((0 : Int), (0 : Int))
        = (S.getD k 0, S.getD (k + 1) 0) := by
    intro k hk
    rw [getD_zip 0 0 (by omega) (by rw [htail_len]; exact hk), getD_tail]
  have hfil : (List.range I.length).filter
      ((fun p : Nat × Int × Int => decide (p.2.1 < p.2.2))
        ∘ (fun k => (I.getD k 0, (S.zip S.tail).getD k (0, 0))))
      = (List.range I.length).filter
          (fun k => decide (S.getD k 0 < S.getD (k + 1) 0)) := by
    apply List.filter_congr
    intro k hk
    have hk2 : k < I.length := List.mem_range.1 hk
    simp only [Function.comp]
    simp only [hg k hk2]
  rw [hfil]
  apply List.map_congr_left
  intro k hk
  have hk2 : k < I.length := List.mem_range.1 (List.mem_filter.1 hk).1
  simp only [hg k hk2]

theorem asc_filter_eq_last_survivor {S : List Int}
    (hmono : S.Pairwise (· ≤ ·)) :
    (List.range (S.length - 1)).filter
        (fun k => decide (S.getD k 0 < S.getD (k + 1) 0))
      = last_survivor_positions S := by
  unfold last_survivor_positions
  apply List.filter_congr
  intro k hk
  have hk' : k < S.length - 1 := List.mem_range.1 hk
  unfold last_of_its_boundary
  rw [decide_eq_decide]
  constructor
  · intro hasc j hj hkj
    have h1 : S.getD (k + 1) 0 ≤ S.getD j 0 :=
      getD_mono_of_sorted hmono (by omega) hj
    omega
  · intro hne
    have h1 : S.getD k 0 ≤ S.getD (k + 1) 0 :=
      getD_mono_of_sorted hmono (by omega) (by omega)
    have h2 := hne (k + 1) (by omega) (by omega)
    omega

theorem align_kept_eq_survivors {I : List Nat} {S : List Int}
    (hlen : S.length = I.length + 1) (hmono : S.Pairwise (· ≤ ·)) :
    (I.zip (S.zip S.tail)).filter (fun p => decide (p.2.1 < p.2.2))
      = (last_survivor_positions S).map
          (fun k => (I.getD k 0, (S.getD k 0, S.getD (k + 1) 0))) := by
  rw [align_kept_positional hlen]
  have h1 : I.length = S.length - 1 := by omega
  rw [h1, asc_filter_eq_last_survivor hmono]

theorem length_last_survivor_positions {S : List Int}
    (hmono : S.Pairwise (· ≤ ·)) :
    (last_survivor_positions S).length = countAsc S := by
  rw [← asc_filter_eq_last_survivor hmono]
  exact countAsc_eq_filter_range S

/-- C6: `align(boundaries)` (with a non-empty strictly increasing boundary
list, as supplied by the loader) succeeds and afterwards (i) every stored
event is one of the boundary values, (ii) there are at most
`len(boundaries) - 1` segments, and (iii) of all original events snapping to
one target boundary only the chronologically last survives: the resulting
events and per-segment values are exactly those of the last-survivor
positions of the snapped event list (earlier events of each boundary, and
the run merged with the sentinel, are discarded). -/
theorem claim_C6_align (c : CategoricalData α) (segments : List Int)
    (hN : c.events.length = c.indices.length + 1)
    (hs : c.events.Pairwise (· ≤ ·))
    (hseg : segments.Pairwise (· < ·)) (hsegne : segments ≠ [])
    (hidx : ∀ i ∈ c.indices, i < c.unique_values.length) :
    ∃ r, c.align segments = some r
      ∧ (∀ x ∈ r.events, x ∈ segments)
      ∧ r.indices.length + 1 ≤ segments.length
      ∧ r.events
          = (last_survivor_positions (c.events.map (snapTo segments))).map
              (fun k => (c.events.map (snapTo segments)).getD k 0)
            ++ [(c.events.map (snapTo segments)).getLastD 0]
      ∧ segVals r
          = (last_survivor_positions (c.events.map (snapTo segments))).map
              (fun k => c.unique_values.get? (c.indices.getD k 0)) := by
  obtain ⟨V, I, E⟩ := c
  simp only at hN hs hidx ⊢
  have halign : CategoricalData.align ⟨V, I, E⟩ segments
      = some { unique_values := (np_unique (((I.zip ((E.map (snapTo segments)).zip
                  (E.map (snapTo segments)).tail)).filter
                  (fun p => decide (p.2.1 < p.2.2))).map Prod.fst)).filterMap
                (fun i => V.get? i)
               indices := (((I.zip ((E.map (snapTo segments)).zip
                  (E.map (snapTo segments)).tail)).filter
                  (fun p => decide (p.2.1 < p.2.2))).map Prod.fst).map
                (fun i => posOf i (np_unique (((I.zip ((E.map (snapTo segments)).zip
                  (E.map (snapTo segments)).tail)).filter
                  (fun p => decide (p.2.1 < p.2.2))).map Prod.fst)))
               events := ((I.zip ((E.map (snapTo segments)).zip
                  (E.map (snapTo segments)).tail)).filter
                  (fun p => decide (p.2.1 < p.2.2))).map (fun p => p.2.1)
                ++ [(E.map (snapTo segments)).getLastD 0] } := by
    unfold CategoricalData.align
    rw [if_neg hsegne]
  set S := E.map (snapTo segments) with hSdef
  have hSlen : S.length = I.length + 1 := by
    rw [hSdef, List.length_map, hN]
  have hSne : S ≠ [] := by
    intro h
    rw [h] at hSlen
    simp at hSlen
  have hSmono : S.Pairwise (· ≤ ·) := by
    rw [hSdef]
    exact List.pairwise_map.2 (hs.imp (fun hab => snapTo_mono hseg hsegne hab))
  have hSmem : ∀ x ∈ S, x ∈ segments := by
    intro x hx
    rw [hSdef] at hx
    rcases List.mem_map.1 hx with ⟨ev, _, hev⟩
    exact hev ▸ snapTo_mem hsegne ev
  have hK : (I.zip (S.zip S.tail)).filter (fun p => decide (p.2.1 < p.2.2))
      = (last_survivor_positions S).map
          (fun k => (I.getD k 0, (S.getD k 0, S.getD (k + 1) 0))) :=
    align_kept_eq_survivors hSlen hSmono
  have hPlt : ∀ k ∈ last_survivor_positions S, k < S.length - 1 := by
    intro k hk
    exact List.mem_range.1 (List.mem_filter.1 hk).1
  refine ⟨_, halign, ?_, ?_, ?_, ?_⟩
  · intro x hx
    simp only at hx
    rcases List.mem_append.1 hx with h | h
    · rcases List.mem_map.1 h with ⟨p, hp, hpx⟩
      rw [hK] at hp
      rcases List.mem_map.1 hp with ⟨k, hk, hkp⟩
      have hklt : k < S.length := by
        have := hPlt k hk
        omega
      have : p.2.1 = S.getD k 0 := by
        rw [← hkp]
      exact hpx ▸ this ▸ hSmem _ (getD_mem 0 hklt)
    · rw [List.mem_singleton.1 h]
      exact hSmem _ (getLastD_mem 0 hSne)
  · simp only [List.length_map]
    rw [hK]
    simp only [List.length_map]
    rw [length_last_survivor_positions hSmono]
    obtain ⟨s0, Stl, hS0⟩ : ∃ s0 Stl, S = s0 :: Stl := by
      match S, hSne with
      | s :: t, _ => exact ⟨s, t, rfl⟩
    have hbound := countAsc_bound hseg S hSmono.chain' hSmem
      (h := s0) (by rw [hS0]; rfl)
    omega
  · simp only
    rw [hK, List.map_map]
    congr 1
  · show ((((I.zip (S.zip S.tail)).filter
        (fun p => decide (p.2.1 < p.2.2))).map Prod.fst).map
          (fun i => posOf i (np_unique (((I.zip (S.zip S.tail)).filter
            (fun p => decide (p.2.1 < p.2.2))).map Prod.fst)))).map
        (fun t => ((np_unique (((I.zip (S.zip S.tail)).filter
            (fun p => decide (p.2.1 < p.2.2))).map Prod.fst)).filterMap
          (fun i => V.get? i)).get? t)
      = (last_survivor_positions S).map (fun k => V.get? (I.getD k 0))
    set K := (I.zip (S.zip S.tail)).filter
      (fun p => decide (p.2.1 < p.2.2)) with hKdef
    set keptIdx := K.map Prod.fst with hkidef
    set subset := np_unique keptIdx with hsubdef
    have hKI : ∀ i ∈ keptIdx, i < V.length := by
      intro i hi
      rcases List.mem_map.1 hi with ⟨p, hp, hpi⟩
      have hpz := (List.mem_filter.1 hp).1
      exact hpi ▸ hidx _ (List.of_mem_zip hpz).1
    have hsub_lt : ∀ i ∈ subset, i < V.length := by
      intro i hi
      exact hKI i (mem_np_unique.1 hi)
    have hvocab_at : ∀ i ∈ subset,
        (subset.filterMap (fun j => V.get? j)).get? (posOf i subset)
          = V.get? i := by
      intro i hi
      rw [List.get?_eq_getElem?]
      rw [filterMap_getElem?_all_some (fun j => V.get? j) subset
        (fun j hj => by
          show (V.get? j).isSome = true
          rw [List.get?_eq_getElem?, List.getElem?_eq_getElem (hsub_lt j hj)]
          rfl)]
      rw [getElem?_posOf hi]
      rfl
    rw [List.map_map]
    have hstep1 : keptIdx.map ((fun t => (subset.filterMap
          (fun i => V.get? i)).get? t) ∘ (fun i => posOf i subset))
        = keptIdx.map (fun i => V.get? i) := by
      apply List.map_congr_left
      intro i hi
      have hisub : i ∈ subset := mem_np_unique.2 hi
      simp only [Function.comp]
      exact hvocab_at i hisub
    rw [hstep1, hkidef, hK, List.map_map, List.map_map]
    apply List.map_congr_left
    intro k _
    rfl

/-- Witness for C6 on `(['x','y','z'], [0,2,3,7])` aligned to `[0,3,7]`
(events 2 and 3 both snap to boundary 3; only event 3, the later one,
survives). -/
theorem claim_C6_witness :
    ∃ r, (CategoricalData.ofValuesEvents ["x", "y", "z"]
            [0, 2, 3, 7]).align [0, 3, 7] = some r
      ∧ (∀ x ∈ r.events, x ∈ ([0, 3, 7] : List Int))
      ∧ r.indices.length + 1 ≤ ([0, 3, 7] : List Int).length
      ∧ r.events
          = (last_survivor_positions ((CategoricalData.ofValuesEvents
                ["x", "y", "z"] [0, 2, 3, 7]).events.map
                (snapTo [0, 3, 7]))).map
              (fun k => ((CategoricalData.ofValuesEvents ["x", "y", "z"]
                  [0, 2, 3, 7]).events.map (snapTo [0, 3, 7])).getD k 0)
            ++ [((CategoricalData.ofValuesEvents ["x", "y", "z"]
                  [0, 2, 3, 7]).events.map (snapTo [0, 3, 7])).getLastD 0]
      ∧ segVals r
          = (last_survivor_positions ((CategoricalData.ofValuesEvents
                ["x", "y", "z"] [0, 2, 3, 7]).events.map
                (snapTo [0, 3, 7]))).map
              (fun k => (CategoricalData.ofValuesEvents ["x", "y", "z"]
                  [0, 2, 3, 7]).unique_values.get?
                ((CategoricalData.ofValuesEvents ["x", "y", "z"]
                  [0, 2, 3, 7]).indices.getD k 0)) :=
  claim_C6_align _ [0, 3, 7] (by decide) (by decide) (by decide) (by decide)
    (by decide)

/-! ## C5: partition / concatenate round trip -/

theorem zip_map_fst_sub (s : Int) :
    ∀ (pairs : List (Nat × Int)),
      (pairs.map Prod.fst).zip (pairs.map (fun p => p.2 - s))
        = pairs.map (fun p => (p.1, p.2 - s))
  | [] => rfl
  | p :: rest => by
    rw [List.map_cons, List.map_cons, List.zip_cons_cons, List.map_cons,
      zip_map_fst_sub s rest]

theorem zip_map_shift (off : Int) :
    ∀ (xs : List Nat) (ys : List Int),
      xs.zip (ys.map (fun e => e + off))
        = (xs.zip ys).map (fun p => (p.1, p.2 + off))
  | [], _ => by simp
  | _ :: _, [] => by simp
  | x :: xs, y :: ys => by
    rw [List.map_cons, List.zip_cons_cons, List.zip_cons_cons, List.map_cons,
      zip_map_shift off xs ys]

theorem map_constant {A B : Type} {l : List A} {f : A → B} {v : B}
    (h : ∀ x ∈ l, f x = v) : l.map f = List.replicate l.length v := by
  induction l with
  | nil => rfl
  | cons x xs ih =>
    rw [List.map_cons, h x (List.mem_cons_self _ _), List.length_cons,
      List.replicate_succ, ih (fun y hy => h y (List.mem_cons_of_mem _ hy))]

theorem unique_in_order_flatten_replicate {V : List α} (hnd : V.Nodup) :
    ∀ {m : Nat}, 1 ≤ m →
      unique_in_order (List.replicate m V).flatten = V := by
  intro m hm
  match m, hm with
  | n + 1, _ =>
    rw [List.replicate_succ, List.flatten_cons]
    apply unique_in_order_append_subset hnd
    intro x hx
    rcases List.mem_flatten.1 hx with ⟨l, hl, hxl⟩
    rw [List.eq_of_mem_replicate hl] at hxl
    exact hxl

theorem flatten_replicate_map_posOf {V : List α} (hnd : V.Nodup) (m : Nat) :
    ((List.replicate m V).flatten).map (fun x => posOf x V)
      = (List.replicate m (List.range V.length)).flatten := by
  rw [List.map_flatten, List.map_replicate, map_posOf_nodup hnd]

theorem getD_range {n i : Nat} (h : i < n) : (List.range n).getD i 0 = i := by
  rw [getD_eq_getElem 0 (by simpa using h)]
  exact List.getElem_range i _

theorem concat_indices_flatten {V : List α} :
    ∀ (ps : List (CategoricalData α)),
      (∀ p ∈ ps, p.unique_values = V) →
      (∀ p ∈ ps, ∀ i ∈ p.indices, i < V.length) →
      concat_indices ps
          ((List.replicate ps.length (List.range V.length)).flatten)
        = (ps.map (fun p => p.indices)).flatten
  | [], _, _ => rfl
  | p :: ps, hvocab, hidx => by
    rw [List.length_cons, List.replicate_succ, List.flatten_cons,
      concat_indices]
    have hlen : p.unique_values.length = (List.range V.length).length := by
      rw [hvocab p (List.mem_cons_self _ _), List.length_range]
    rw [hlen, List.take_left, List.drop_left]
    rw [concat_indices_flatten ps
      (fun q hq => hvocab q (List.mem_cons_of_mem _ hq))
      (fun q hq => hidx q (List.mem_cons_of_mem _ hq))]
    rw [List.map_cons, List.flatten_cons]
    congr 1
    have : ∀ i ∈ p.indices, (List.range V.length).getD i 0 = i := by
      intro i hi
      exact getD_range (hidx p (List.mem_cons_self _ _) i hi)
    calc p.indices.map (fun i => (List.range V.length).getD i 0)
        = p.indices.map (fun i => i) := List.map_congr_left this
      _ = p.indices := List.map_id' _

theorem partition_piece_unique_values (c : CategoricalData α) (s e : Int) :
    (partition_piece c s e).unique_values = c.unique_values := by
  unfold partition_piece
  by_cases h : (((c.indices.zip c.events.dropLast).filter
      (fun p => decide (s ≤ p.2) && decide (p.2 < e))).map
      (fun p => p.2 - s)).head? = some 0
  · rw [if_pos h]
  · rw [if_neg h]

theorem partition_piece_getLastD (c : CategoricalData α) (s e : Int) :
    (partition_piece c s e).events.getLastD 0 = e - s := by
  unfold partition_piece
  by_cases h : (((c.indices.zip c.events.dropLast).filter
      (fun p => decide (s ≤ p.2) && decide (p.2 < e))).map
      (fun p => p.2 - s)).head? = some 0
  · rw [if_pos h]
    exact List.getLastD_concat _ _ _
  · rw [if_neg h]
    show ((0 :: _) : List Int).getLastD 0 = e - s
    rw [List.getLastD_cons]
    exact List.getLastD_concat _ _ _

theorem partition_piece_len (c : CategoricalData α) (s e : Int) :
    (partition_piece c s e).events.length
      = (partition_piece c s e).indices.length + 1 := by
  unfold partition_piece
  by_cases h : (((c.indices.zip c.events.dropLast).filter
      (fun p => decide (s ≤ p.2) && decide (p.2 < e))).map
      (fun p => p.2 - s)).head? = some 0
  · rw [if_pos h]
    simp
  · rw [if_neg h]
    simp

theorem partition_piece_dropLast (c : CategoricalData α) (s e : Int) :
    (partition_piece c s e).events.dropLast
        = ((c.indices.zip c.events.dropLast).filter
            (fun p => decide (s ≤ p.2) && decide (p.2 < e))).map
            (fun p => p.2 - s)
      ∨ (partition_piece c s e).events.dropLast
        = 0 :: ((c.indices.zip c.events.dropLast).filter
            (fun p => decide (s ≤ p.2) && decide (p.2 < e))).map
            (fun p => p.2 - s) := by
  unfold partition_piece
  by_cases h : (((c.indices.zip c.events.dropLast).filter
      (fun p => decide (s ≤ p.2) && decide (p.2 < e))).map
      (fun p => p.2 - s)).head? = some 0
  · rw [if_pos h]
    left
    exact List.dropLast_concat
  · rw [if_neg h]
    right
    show ((0 :: (_ ++ [e - s])) : List Int).dropLast = _
    rw [← List.cons_append, List.dropLast_concat]

theorem partition_piece_events_range (c : CategoricalData α) {s e : Int}
    (hse : s < e) :
    ∀ x ∈ (partition_piece c s e).events.dropLast, 0 ≤ x ∧ x < e - s := by
  have hmapped : ∀ x ∈ ((c.indices.zip c.events.dropLast).filter
      (fun p => decide (s ≤ p.2) && decide (p.2 < e))).map
      (fun p => p.2 - s), 0 ≤ x ∧ x < e - s := by
    intro x hx
    rcases List.mem_map.1 hx with ⟨p, hp, hpx⟩
    have := (List.mem_filter.1 hp).2
    simp only [Bool.and_eq_true, decide_eq_true_eq] at this
    omega
  intro x hx
  rcases partition_piece_dropLast c s e with h | h
  · rw [h] at hx
    exact hmapped x hx
  · rw [h] at hx
    rcases List.mem_cons.1 hx with h' | h'
    · omega
    · exact hmapped x h'

theorem pairwise_snd_zip {I : List Nat} {E : List Int}
    (hlen : E.length ≤ I.length) (hE : E.Pairwise (· ≤ ·)) :
    (I.zip E).Pairwise (fun p q => p.2 ≤ q.2) := by
  have h1 : ((I.zip E).map Prod.snd).Pairwise (· ≤ ·) := by
    rw [List.map_snd_zip I E hlen]
    exact hE
  exact List.pairwise_map.1 h1

theorem partition_piece_dropLast_sorted (c : CategoricalData α)
    (hN : c.events.length = c.indices.length + 1)
    (hs : c.events.Pairwise (· ≤ ·)) (s e : Int) :
    ((partition_piece c s e).events.dropLast).Pairwise (· ≤ ·) := by
  have hE' : (c.events.dropLast).Pairwise (· ≤ ·) :=
    List.Pairwise.sublist (List.dropLast_sublist _) hs
  have hElen : c.events.dropLast.length ≤ c.indices.length := by
    rw [List.length_dropLast, hN]
    omega
  have hzip : (c.indices.zip c.events.dropLast).Pairwise
      (fun p q => p.2 ≤ q.2) := pairwise_snd_zip hElen hE'
  have hfil : ((c.indices.zip c.events.dropLast).filter
      (fun p => decide (s ≤ p.2) && decide (p.2 < e))).Pairwise
      (fun p q => p.2 ≤ q.2) := hzip.filter _
  have hsnds : (((c.indices.zip c.events.dropLast).filter
      (fun p => decide (s ≤ p.2) && decide (p.2 < e))).map
      (fun p => p.2 - s)).Pairwise (· ≤ ·) := by
    apply List.pairwise_map.2
    exact hfil.imp (fun hab => by omega)
  rcases partition_piece_dropLast c s e with h | h
  · rw [h]
    exact hsnds
  · rw [h]
    refine List.pairwise_cons.2 ⟨?_, hsnds⟩
    intro x hx
    rcases List.mem_map.1 hx with ⟨p, hp, hpx⟩
    have := (List.mem_filter.1 hp).2
    simp only [Bool.and_eq_true, decide_eq_true_eq] at this
    omega

/-- The window lookup lemma: inside window `[s, e)` of a well-formed series,
the partition piece holds exactly the original zeroth-order value: looking
the piece up at relative dump `t` matches looking the original up at
`s + t` (and the original lookup lands on a real segment). -/
theorem partition_piece_stepIdx {V : List α} {I : List Nat} {E : List Int}
    (hN : E.length = I.length + 1)
    (hs : E.Pairwise (· ≤ ·))
    (h0 : E.head? = some 0)
    (hIne : I ≠ [])
    {s e t : Int} (hs0 : 0 ≤ s) (hse : s < e) (ht : 0 ≤ t)
    (hte : t < e - s) :
    stepIdx ((partition_piece ⟨V, I, E⟩ s e).indices.zip
        (partition_piece ⟨V, I, E⟩ s e).events.dropLast) t
      = stepIdx (I.zip E.dropLast) (s + t)
    ∧ (stepIdx (I.zip E.dropLast) (s + t)).isSome := by
  obtain ⟨E1, rfl⟩ : ∃ E1, E = 0 :: E1 := by
    match E, h0 with
    | x :: E1, h0 =>
      have hx : x = 0 := by simpa using h0
      exact ⟨E1, by rw [hx]⟩
  have hIlen : 0 < I.length := List.length_pos.2 hIne
  have hE1ne : E1 ≠ [] := by
    intro h
    subst h
    have h1 : (1 : Nat) = I.length + 1 := by simpa using hN
    omega
  have hEsplit : ((0 : Int) :: E1).dropLast = 0 :: E1.dropLast :=
    List.dropLast_cons_of_ne_nil hE1ne
  have hE'len : ((0 : Int) :: E1).dropLast.length = I.length := by
    rw [List.length_dropLast, hN]
    omega
  have hE'sorted : ((0 : Int) :: E1).dropLast.Pairwise (· ≤ ·) :=
    List.Pairwise.sublist (List.dropLast_sublist _) hs
  have hbase_snd : ((I.zip ((0 : Int) :: E1).dropLast).map Prod.snd)
      = ((0 : Int) :: E1).dropLast :=
    List.map_snd_zip _ _ (le_of_eq hE'len)
  have hbase_sorted : ((I.zip ((0 : Int) :: E1).dropLast).map
      Prod.snd).Pairwise (· ≤ ·) := by
    rw [hbase_snd]
    exact hE'sorted
  obtain ⟨i0, I1, rfl⟩ : ∃ i0 I1, I = i0 :: I1 := by
    match I, hIne with
    | i :: I1, _ => exact ⟨i, I1, rfl⟩
  have hbase_head : (i0, (0 : Int)) ∈ (i0 :: I1).zip
      (((0 : Int) :: E1).dropLast) := by
    rw [hEsplit, List.zip_cons_cons]
    exact List.mem_cons_self _ _
  have hisSome : (stepIdx ((i0 :: I1).zip
      (((0 : Int) :: E1).dropLast)) (s + t)).isSome :=
    stepIdx_isSome_of_mem_le hbase_sorted ⟨(i0, 0), hbase_head, by omega⟩
  have hst_e : s + t < e := by omega
  have hwin := stepIdx_filter_window hbase_sorted ht hst_e
  refine ⟨?_, hisSome⟩
  unfold partition_piece
  by_cases hhead : ((((i0 :: I1).zip (((0 : Int) :: E1).dropLast)).filter
      (fun p => decide (s ≤ p.2) && decide (p.2 < e))).map
      (fun p => p.2 - s)).head? = some 0
  · rw [if_pos hhead]
    show stepIdx (((((i0 :: I1).zip (((0 : Int) :: E1).dropLast)).filter
        (fun p => decide (s ≤ p.2) && decide (p.2 < e))).map Prod.fst).zip
        (((((i0 :: I1).zip (((0 : Int) :: E1).dropLast)).filter
          (fun p => decide (s ≤ p.2) && decide (p.2 < e))).map
          (fun p => p.2 - s) ++ [e - s]).dropLast)) t = _
    rw [List.dropLast_concat, zip_map_fst_sub]
    have hex : ∃ p ∈ (i0 :: I1).zip (((0 : Int) :: E1).dropLast),
        s ≤ p.2 ∧ p.2 ≤ s + t := by
      rw [List.head?_map] at hhead
      cases hWq : (((i0 :: I1).zip (((0 : Int) :: E1).dropLast)).filter
          (fun p => decide (s ≤ p.2) && decide (p.2 < e))).head? with
      | none =>
        rw [hWq] at hhead
        simp at hhead
      | some q =>
        rw [hWq] at hhead
        have hq2 : q.2 - s = 0 := by simpa using hhead
        have hqW : q ∈ (((i0 :: I1).zip (((0 : Int) :: E1).dropLast)).filter
            (fun p => decide (s ≤ p.2) && decide (p.2 < e))) :=
          List.mem_of_mem_head? (by rw [hWq]; rfl)
        have hqbase := (List.mem_filter.1 hqW).1
        exact ⟨q, hqbase, by omega, by omega⟩
    rw [hwin, if_pos hex]
  · rw [if_neg hhead]
    show stepIdx ((partition_initial_index ⟨V, i0 :: I1, 0 :: E1⟩ s
        :: ((((i0 :: I1).zip (((0 : Int) :: E1).dropLast)).filter
          (fun p => decide (s ≤ p.2) && decide (p.2 < e))).map
          Prod.fst)).zip
        (((0 : Int) :: (((((i0 :: I1).zip (((0 : Int) :: E1).dropLast)).filter
          (fun p => decide (s ≤ p.2) && decide (p.2 < e))).map
          (fun p => p.2 - s)) ++ [e - s])).dropLast)) t = _
    have hdl : ((0 : Int) :: (((((i0 :: I1).zip
        (((0 : Int) :: E1).dropLast)).filter
        (fun p => decide (s ≤ p.2) && decide (p.2 < e))).map
        (fun p => p.2 - s)) ++ [e - s])).dropLast
        = 0 :: ((((i0 :: I1).zip (((0 : Int) :: E1).dropLast)).filter
          (fun p => decide (s ≤ p.2) && decide (p.2 < e))).map
          (fun p => p.2 - s)) := by
      rw [← List.cons_append, List.dropLast_concat]
    rw [hdl, List.zip_cons_cons, zip_map_fst_sub]
    have hcons : stepIdx ((partition_initial_index ⟨V, i0 :: I1, 0 :: E1⟩ s,
        (0 : Int)) :: ((((i0 :: I1).zip (((0 : Int) :: E1).dropLast)).filter
          (fun p => decide (s ≤ p.2) && decide (p.2 < e))).map
          (fun p => (p.1, p.2 - s)))) t
        = some ((stepIdx (((((i0 :: I1).zip
            (((0 : Int) :: E1).dropLast)).filter
            (fun p => decide (s ≤ p.2) && decide (p.2 < e))).map
            (fun p => (p.1, p.2 - s)))) t).getD
          (partition_initial_index ⟨V, i0 :: I1, 0 :: E1⟩ s)) := by
      simp [stepIdx, ht]
    rw [hcons]
    by_cases hex : ∃ p ∈ (i0 :: I1).zip (((0 : Int) :: E1).dropLast),
        s ≤ p.2 ∧ p.2 ≤ s + t
    · rw [hwin, if_pos hex]
      rcases Option.isSome_iff_exists.1 hisSome with ⟨v, hv⟩
      rw [hv]
      rfl
    · rw [hwin, if_neg hex]
      have hLK := stepIdx_eq_searchsorted hE'len.symm hE'sorted (s + t)
      have hzeromem : (0 : Int) ∈ ((0 : Int) :: E1).dropLast := by
        rw [hEsplit]
        exact List.mem_cons_self _ _
      have hposst : 0 < searchsorted_right (((0 : Int) :: E1).dropLast)
          (s + t) := by
        unfold searchsorted_right
        apply List.countP_pos.2
        exact ⟨0, hzeromem, by simpa using by omega⟩
      have heqss : searchsorted_right (((0 : Int) :: E1).dropLast) (s + t)
          = searchsorted_right (((0 : Int) :: E1).dropLast) s := by
        unfold searchsorted_right
        apply List.countP_congr
        intro x hx
        have hxbase : ∃ p ∈ (i0 :: I1).zip (((0 : Int) :: E1).dropLast),
            p.2 = x := by
          have hxm : x ∈ ((i0 :: I1).zip
              (((0 : Int) :: E1).dropLast)).map Prod.snd := by
            rw [hbase_snd]
            exact hx
          rcases List.mem_map.1 hxm with ⟨p, hp, hpx⟩
          exact ⟨p, hp, hpx⟩
        rcases hxbase with ⟨p, hp, hpx⟩
        have hnx : ¬(s ≤ x ∧ x ≤ s + t) := fun hc =>
          hex ⟨p, hp, by omega, by omega⟩
        simp only [decide_eq_true_eq]
        omega
      have hposs : 0 < searchsorted_right (((0 : Int) :: E1).dropLast) s := by
        omega
      have hssle : searchsorted_right (((0 : Int) :: E1).dropLast) s
          ≤ (i0 :: I1).length := by
        rw [← hE'len]
        exact searchsorted_right_le_length _ _
      rw [hLK, if_pos hposst, heqss]
      have hinit : partition_initial_index ⟨V, i0 :: I1, 0 :: E1⟩ s
          = (i0 :: I1).getD
            (searchsorted_right (((0 : Int) :: E1).dropLast) s - 1) 0 := by
        simp only [partition_initial_index]
        congr 1
        have hcast := hE'len
        omega
      rw [hinit]
      have hlt : searchsorted_right (((0 : Int) :: E1).dropLast) s - 1
          < (i0 :: I1).length := by
        omega
      rw [getD_eq_getElem 0 hlt, List.getElem?_eq_getElem hlt]
      rfl

theorem getLastD_of_ne_nil {β : Type} {l : List β} (h : l ≠ []) (a b : β) :
    l.getLastD a = l.getLastD b := by
  rw [List.getLastD_eq_getLast?, List.getLastD_eq_getLast?,
    List.getLast?_eq_getLast l h]
  rfl

theorem cumsumFrom_zip_widths :
    ∀ (B : List Int) (b0 : Int), B.head? = some b0 →
      cumsumFrom b0 ((B.zip B.tail).map (fun se => se.2 - se.1)) = B.tail
  | [], _, hh => by simp at hh
  | [b], b0, hh => by
    simp [cumsumFrom]
  | b :: b1 :: rest, b0, hh => by
    have hb : b = b0 := by simpa using hh
    subst hb
    show cumsumFrom b (((b, b1) :: ((b1 :: rest).zip rest)).map
      (fun se => se.2 - se.1)) = b1 :: rest
    rw [List.map_cons]
    show (b + (b1 - b)) :: cumsumFrom (b + (b1 - b))
      (((b1 :: rest).zip rest).map (fun se => se.2 - se.1)) = b1 :: rest
    have hbb : b + (b1 - b) = b1 := by omega
    have h2 := cumsumFrom_zip_widths (b1 :: rest) b1 rfl
    rw [List.tail_cons] at h2
    rw [hbb, h2]

theorem getD_lt_of_all_lt {l : List Nat} {M : Nat}
    (hid : ∀ i ∈ l, i < M) (hM : 0 < M) (n : Nat) : l.getD n 0 < M := by
  by_cases h : n < l.length
  · exact hid _ (getD_mem 0 h)
  · rw [List.getD_eq_default _ _ (by omega)]
    exact hM

theorem piece_indices_lt {V : List α} {I : List Nat} {E : List Int}
    (hidx : ∀ i ∈ I, i < V.length) (hM : 0 < V.length) (s e : Int) :
    ∀ i ∈ (partition_piece ⟨V, I, E⟩ s e).indices, i < V.length := by
  have hfil : ∀ i ∈ ((I.zip E.dropLast).filter
      (fun p => decide (s ≤ p.2) && decide (p.2 < e))).map Prod.fst,
      i < V.length := by
    intro i hi
    rcases List.mem_map.1 hi with ⟨p, hp, hpi⟩
    exact hpi ▸ hidx _ (List.of_mem_zip (List.mem_filter.1 hp).1).1
  have hinit : partition_initial_index ⟨V, I, E⟩ s < V.length := by
    simp only [partition_initial_index]
    exact getD_lt_of_all_lt hidx hM _
  intro i hi
  unfold partition_piece at hi
  by_cases h : (((I.zip E.dropLast).filter
      (fun p => decide (s ≤ p.2) && decide (p.2 < e))).map
      (fun p => p.2 - s)).head? = some 0
  · rw [if_pos h] at hi
    exact hfil i hi
  · rw [if_neg h] at hi
    simp only at hi
    rcases List.mem_cons.1 hi with h' | h'
    · exact h' ▸ hinit
    · exact hfil i h'

theorem concat_events_sorted_bounds {V : List α} {I : List Nat} {E : List Int}
    (hN : E.length = I.length + 1) (hs : E.Pairwise (· ≤ ·)) :
    ∀ (B1 : List Int) (b0 : Int), (b0 :: B1).Pairwise (· < ·) →
      (concat_events (((b0 :: B1).zip B1).map
          (fun se => partition_piece ⟨V, I, E⟩ se.1 se.2))
          (b0 :: B1)).Pairwise (· ≤ ·)
      ∧ ∀ x ∈ concat_events (((b0 :: B1).zip B1).map
          (fun se => partition_piece ⟨V, I, E⟩ se.1 se.2)) (b0 :: B1),
          b0 ≤ x ∧ x < (b0 :: B1).getLastD 0
  | [], b0, _ => by
    constructor
    · exact List.Pairwise.nil
    · intro x hx
      simp [concat_events] at hx
  | b1 :: rest, b0, hB => by
    have hb01 : b0 < b1 := List.rel_of_pairwise_cons hB
      (List.mem_cons_self _ _)
    have hBrest : (b1 :: rest).Pairwise (· < ·) :=
      (List.pairwise_cons.1 hB).2
    have IH := concat_events_sorted_bounds (V := V) hN hs rest b1 hBrest
    have hshape : concat_events (((b0 :: b1 :: rest).zip (b1 :: rest)).map
        (fun se => partition_piece ⟨V, I, E⟩ se.1 se.2)) (b0 :: b1 :: rest)
        = (partition_piece ⟨V, I, E⟩ b0 b1).events.dropLast.map
            (fun e => e + b0)
          ++ concat_events (((b1 :: rest).zip rest).map
            (fun se => partition_piece ⟨V, I, E⟩ se.1 se.2))
            (b1 :: rest) := by
      rw [List.zip_cons_cons, List.map_cons, concat_events]
      rfl
    have hblock : ∀ x ∈ (partition_piece ⟨V, I, E⟩ b0 b1).events.dropLast.map
        (fun e => e + b0), b0 ≤ x ∧ x < b1 := by
      intro x hx
      rcases List.mem_map.1 hx with ⟨y, hy, hyx⟩
      have := partition_piece_events_range (⟨V, I, E⟩ : CategoricalData α)
        hb01 y hy
      omega
    have hb1last : b1 ≤ (b0 :: b1 :: rest).getLastD 0 := by
      have h1 : (b0 :: b1 :: rest).getLastD 0 = (b1 :: rest).getLastD 0 := by
        rw [List.getLastD_cons]
        exact getLastD_of_ne_nil (by simp) b0 0
      rw [h1]
      exact le_getLastD_of_sorted (hBrest.imp (fun hab => le_of_lt hab))
        (List.mem_cons_self _ _)
    have hlast_eq : (b0 :: b1 :: rest).getLastD 0
        = (b1 :: rest).getLastD 0 := by
      rw [List.getLastD_cons]
      exact getLastD_of_ne_nil (by simp) b0 0
    rw [hshape]
    constructor
    · refine List.pairwise_append.2 ⟨?_, IH.1, ?_⟩
      · have hsorted := partition_piece_dropLast_sorted
          (⟨V, I, E⟩ : CategoricalData α) hN hs b0 b1
        exact List.pairwise_map.2 (hsorted.imp (fun hab => by omega))
      · intro x hx y hy
        have h1 := hblock x hx
        have h2 := (IH.2 y hy).1
        omega
    · intro x hx
      rcases List.mem_append.1 hx with h | h
      · have h1 := hblock x h
        constructor
        · omega
        · have := hb1last
          omega
      · have h2 := IH.2 x h
        rw [hlast_eq]
        constructor
        · omega
        · exact h2.2

theorem concat_events_length :
    ∀ (ps : List (CategoricalData α)) (offs : List Int),
      (∀ p ∈ ps, p.events.length = p.indices.length + 1) →
      (concat_events ps offs).length
        = ((ps.map (fun p => p.indices)).flatten).length
  | [], _, _ => rfl
  | p :: ps, offs, hlen => by
    rw [concat_events, List.map_cons, List.flatten_cons, List.length_append,
      List.length_append, List.length_map, List.length_dropLast,
      hlen p (List.mem_cons_self _ _),
      concat_events_length ps offs.tail
        (fun q hq => hlen q (List.mem_cons_of_mem _ hq))]
    simp

theorem sorted_append_last {l : List Int} {a : Int} (hl : l.Pairwise (· ≤ ·))
    (ha : ∀ x ∈ l, x ≤ a) : (l ++ [a]).Pairwise (· ≤ ·) := by
  refine List.pairwise_append.2 ⟨hl, List.pairwise_singleton _ _, ?_⟩
  intro x hx y hy
  rw [List.mem_singleton.1 hy]
  exact ha x hx

theorem partition_piece_events_sorted (c : CategoricalData α)
    (hN : c.events.length = c.indices.length + 1)
    (hs : c.events.Pairwise (· ≤ ·)) {s e : Int} (hse : s < e) :
    (partition_piece c s e).events.Pairwise (· ≤ ·) := by
  have hne : (partition_piece c s e).events ≠ [] := by
    intro h
    have h1 := partition_piece_len c s e
    rw [h] at h1
    simp at h1
  rw [← events_decomp hne]
  apply sorted_append_last (partition_piece_dropLast_sorted c hN hs s e)
  intro x hx
  have h1 := partition_piece_events_range c hse x hx
  rw [partition_piece_getLastD]
  omega

theorem concat_partition_stepIdx {V : List α} {I : List Nat} {E : List Int}
    (hN : E.length = I.length + 1) (hs : E.Pairwise (· ≤ ·))
    (h0 : E.head? = some 0) (hIne : I ≠ []) :
    ∀ (B1 : List Int) (b0 : Int), 0 ≤ b0 → (b0 :: B1).Pairwise (· < ·) →
      ∀ d : Int, b0 ≤ d → d < (b0 :: B1).getLastD 0 →
      stepIdx ((((((b0 :: B1).zip B1).map
            (fun se => partition_piece ⟨V, I, E⟩ se.1 se.2)).map
            (fun p => p.indices)).flatten).zip
          (concat_events (((b0 :: B1).zip B1).map
            (fun se => partition_piece ⟨V, I, E⟩ se.1 se.2)) (b0 :: B1))) d
        = stepIdx (I.zip E.dropLast) d
      ∧ (stepIdx (I.zip E.dropLast) d).isSome
  | [], b0, _, _, d, hd0, hdlast => by
    have hb : ([b0] : List Int).getLastD 0 = b0 := by simp
    rw [hb] at hdlast
    omega
  | b1 :: rest, b0, hb0, hB, d, hd0, hdlast => by
    have hb01 : b0 < b1 := List.rel_of_pairwise_cons hB
      (List.mem_cons_self _ _)
    have hBrest : (b1 :: rest).Pairwise (· < ·) :=
      (List.pairwise_cons.1 hB).2
    have hshape : concat_events (((b0 :: b1 :: rest).zip (b1 :: rest)).map
        (fun se => partition_piece ⟨V, I, E⟩ se.1 se.2)) (b0 :: b1 :: rest)
        = (partition_piece ⟨V, I, E⟩ b0 b1).events.dropLast.map
            (fun e => e + b0)
          ++ concat_events (((b1 :: rest).zip rest).map
            (fun se => partition_piece ⟨V, I, E⟩ se.1 se.2))
            (b1 :: rest) := by
      rw [List.zip_cons_cons, List.map_cons, concat_events]
      rfl
    have hflat : ((((((b0 :: b1 :: rest).zip (b1 :: rest)).map
          (fun se => partition_piece ⟨V, I, E⟩ se.1 se.2)).map
          (fun p => p.indices)).flatten) : List Nat)
        = (partition_piece (⟨V, I, E⟩ : CategoricalData α) b0 b1).indices
          ++ ((((((b1 :: rest).zip rest).map
            (fun se => partition_piece ⟨V, I, E⟩ se.1 se.2)).map
            (fun p => p.indices)).flatten) : List Nat) := by
      rw [List.zip_cons_cons, List.map_cons, List.map_cons, List.flatten_cons]
    have hlen0 : (partition_piece (⟨V, I, E⟩ : CategoricalData α)
          b0 b1).indices.length
        = ((partition_piece (⟨V, I, E⟩ : CategoricalData α)
            b0 b1).events.dropLast.map (fun e => e + b0)).length := by
      rw [List.length_map, List.length_dropLast, partition_piece_len]
      omega
    rw [hflat, hshape, List.zip_append hlen0]
    by_cases hd1 : d < b1
    · have hgt : ∀ p ∈ (((((((b1 :: rest).zip rest).map
          (fun se => partition_piece ⟨V, I, E⟩ se.1 se.2)).map
          (fun p => p.indices)).flatten) : List Nat).zip
          (concat_events (((b1 :: rest).zip rest).map
            (fun se => partition_piece ⟨V, I, E⟩ se.1 se.2)) (b1 :: rest))),
          d < p.2 := by
        intro p hp
        have hsnd := (List.of_mem_zip hp).2
        have hbd := (concat_events_sorted_bounds (V := V) hN hs rest b1
          hBrest).2 p.2 hsnd
        omega
      rw [stepIdx_append_all_gt hgt,
        zip_map_shift b0
          (partition_piece (⟨V, I, E⟩ : CategoricalData α) b0 b1).indices
          (partition_piece (⟨V, I, E⟩ : CategoricalData α)
            b0 b1).events.dropLast,
        stepIdx_map_shift]
      have hkey := partition_piece_stepIdx (V := V) hN hs h0 hIne
        (s := b0) (e := b1) (t := d - b0) hb0 hb01 (by omega) (by omega)
      have harg : b0 + (d - b0) = d := by omega
      rw [harg] at hkey
      exact hkey
    · have hd1' : b1 ≤ d := by omega
      have hlast_eq : (b0 :: b1 :: rest).getLastD 0
          = (b1 :: rest).getLastD 0 := by
        rw [List.getLastD_cons]
        exact getLastD_of_ne_nil (by simp) b0 0
      rw [hlast_eq] at hdlast
      have IH := concat_partition_stepIdx (V := V) hN hs h0 hIne rest b1
        (by omega) hBrest d hd1' hdlast
      obtain ⟨v, hv⟩ := Option.isSome_iff_exists.1 IH.2
      have hall : ∀ p ∈ (partition_piece (⟨V, I, E⟩ : CategoricalData α)
          b0 b1).indices.zip
          ((partition_piece (⟨V, I, E⟩ : CategoricalData α)
            b0 b1).events.dropLast.map (fun e => e + b0)), p.2 ≤ d := by
        intro p hp
        have hsnd := (List.of_mem_zip hp).2
        rcases List.mem_map.1 hsnd with ⟨y, hy, hyp⟩
        have := partition_piece_events_range (⟨V, I, E⟩ : CategoricalData α)
          hb01 y hy
        omega
      refine ⟨?_, IH.2⟩
      exact (stepIdx_append_all_le (IH.1.trans hv) hall).trans hv.symm

theorem concatenate_categorical_eq (ps : List (CategoricalData α))
    (hlen : ¬ ps.length = 1) (hne : ¬ ps = []) :
    concatenate_categorical ps true = some
      { unique_values :=
          unique_in_order ((ps.map (fun c => c.unique_values)).flatten)
        indices := concat_indices ps
          (((ps.map (fun c => c.unique_values)).flatten).map
            (fun x => posOf x
              (unique_in_order ((ps.map (fun c => c.unique_values)).flatten))))
        events := concat_events ps
            (cumsum (0 :: ps.map (fun c => c.events.getLastD 0)))
          ++ [(cumsum (0 :: ps.map (fun c => c.events.getLastD 0))).getLastD 0]
      } := by
  unfold concatenate_categorical
  rw [if_neg hlen, if_neg hne]
  rfl

/-- Claim C5 (amended): for a well-formed series whose events start at 0 and
whose total length is positive, partitioning along a strictly increasing
boundary sequence running from 0 up to the total length and concatenating the
resulting pieces in order with `allow_repeats` reproduces the original
per-dump values over the whole range `[0, events[-1])`.  (The amendment is
the positivity hypothesis: with total length 0 the boundary list collapses to
`[0]`, `partition` produces no pieces and `np.concatenate([])` raises.) -/
theorem claim_C5_partition_concat {V : List α} {I : List Nat} {E : List Int}
    {B : List Int}
    (hN : E.length = I.length + 1) (hs : E.Pairwise (· ≤ ·))
    (h0 : E.head? = some 0)
    (hidx : ∀ i ∈ I, i < V.length) (hnd : V.Nodup)
    (hB : B.Pairwise (· < ·)) (hBh : B.head? = some 0)
    (hBl : B.getLast? = some (E.getLastD 0))
    (hpos : 0 < E.getLastD 0) :
    ∃ r, concatenate_categorical
        ((⟨V, I, E⟩ : CategoricalData α).partition B) true = some r
      ∧ ∀ d : Int, 0 ≤ d → d < E.getLastD 0 →
          r.getitem d = (⟨V, I, E⟩ : CategoricalData α).getitem d := by
  obtain ⟨E1, rfl⟩ : ∃ E1, E = (0 : Int) :: E1 := by
    match E, h0 with
    | x :: E1, h0 =>
      have hx : x = 0 := by simpa using h0
      exact ⟨E1, by rw [hx]⟩
  obtain ⟨B1, rfl⟩ : ∃ B1, B = (0 : Int) :: B1 := by
    match B, hBh with
    | x :: B1, hBh =>
      have hx : x = 0 := by simpa using hBh
      exact ⟨B1, by rw [hx]⟩
  have hIne : I ≠ [] := by
    intro hI
    have h1 : E1.length = 0 := by
      rw [hI] at hN
      simp only [List.length_cons, List.length_nil] at hN
      omega
    have h2 : E1 = [] := List.eq_nil_of_length_eq_zero h1
    rw [h2] at hpos
    exact absurd hpos (by decide)
  have hM : 0 < V.length := by
    obtain ⟨i, hi⟩ := List.exists_mem_of_ne_nil I hIne
    have := hidx i hi
    omega
  cases B1 with
  | nil =>
      have h1 : ((0 : Int) :: ([] : List Int)).getLast? = some 0 := rfl
      rw [h1] at hBl
      have h2 : (0 : Int) = ((0 : Int) :: E1).getLastD 0 := by
        injection hBl
      omega
  | cons b1 B2 => cases B2 with
    | nil =>
        have hb1L : b1 = ((0 : Int) :: E1).getLastD 0 := by
          have h1 : ((0 : Int) :: [b1]).getLast? = some b1 := rfl
          rw [h1] at hBl
          injection hBl
        have hse : (0 : Int) < b1 := by omega
        refine ⟨partition_piece (⟨V, I, (0 : Int) :: E1⟩ : CategoricalData α)
          0 b1, rfl, ?_⟩
        intro d hd0 hdL
        have hdpiece : d < (partition_piece
            (⟨V, I, (0 : Int) :: E1⟩ : CategoricalData α) 0 b1).events.getLastD
            0 := by
          rw [partition_piece_getLastD]
          omega
        simp only [CategoricalData.getitem, partition_piece_unique_values]
        congr 1
        rw [lookup_eq_stepIdx (c := partition_piece
              (⟨V, I, (0 : Int) :: E1⟩ : CategoricalData α) 0 b1)
            (partition_piece_len _ _ _)
            (partition_piece_events_sorted _ hN hs hse) hdpiece,
          lookup_eq_stepIdx (c := (⟨V, I, (0 : Int) :: E1⟩ : CategoricalData α))
            hN hs hdL]
        have hkey := partition_piece_stepIdx (V := V) hN hs h0 hIne
          (s := 0) (e := b1) (t := d) le_rfl hse hd0 (by omega)
        have h0d : (0 : Int) + d = d := by omega
        rw [h0d] at hkey
        exact hkey.1
    | cons b2 B3 =>
        have hpieces : (⟨V, I, (0 : Int) :: E1⟩ : CategoricalData α).partition
            ((0 : Int) :: b1 :: b2 :: B3)
            = (((0 : Int) :: b1 :: b2 :: B3).zip (b1 :: b2 :: B3)).map
                (fun se => partition_piece ⟨V, I, (0 : Int) :: E1⟩ se.1 se.2)
            := by
          simp only [CategoricalData.partition, List.tail_cons]
        have hPlen : ((((0 : Int) :: b1 :: b2 :: B3).zip
            (b1 :: b2 :: B3)).map (fun se => partition_piece
              (⟨V, I, (0 : Int) :: E1⟩ : CategoricalData α)
              se.1 se.2)).length = (b1 :: b2 :: B3).length := by
          rw [List.length_map, List.length_zip]
          simp only [List.length_cons]
          omega
        have hlen1 : ¬ ((((0 : Int) :: b1 :: b2 :: B3).zip
            (b1 :: b2 :: B3)).map (fun se => partition_piece
              (⟨V, I, (0 : Int) :: E1⟩ : CategoricalData α)
              se.1 se.2)).length = 1 := by
          rw [hPlen]
          simp only [List.length_cons]
          omega
        have hnnil : ¬ ((((0 : Int) :: b1 :: b2 :: B3).zip
            (b1 :: b2 :: B3)).map (fun se => partition_piece
              (⟨V, I, (0 : Int) :: E1⟩ : CategoricalData α)
              se.1 se.2)) = [] := by
          intro h
          rw [h] at hPlen
          simp only [List.length_nil, List.length_cons] at hPlen
          omega
        have hvocab_each : ∀ p ∈ ((((0 : Int) :: b1 :: b2 :: B3).zip
            (b1 :: b2 :: B3)).map (fun se => partition_piece
              (⟨V, I, (0 : Int) :: E1⟩ : CategoricalData α)
              se.1 se.2)), p.unique_values = V := by
          intro p hp
          rcases List.mem_map.1 hp with ⟨se, hsem, rfl⟩
          exact partition_piece_unique_values _ _ _
        have hpidx : ∀ p ∈ ((((0 : Int) :: b1 :: b2 :: B3).zip
            (b1 :: b2 :: B3)).map (fun se => partition_piece
              (⟨V, I, (0 : Int) :: E1⟩ : CategoricalData α)
              se.1 se.2)), ∀ i ∈ p.indices, i < V.length := by
          intro p hp
          rcases List.mem_map.1 hp with ⟨se, hsem, rfl⟩
          exact piece_indices_lt hidx hM se.1 se.2
        have hallVals : (((((0 : Int) :: b1 :: b2 :: B3).zip
            (b1 :: b2 :: B3)).map (fun se => partition_piece
              (⟨V, I, (0 : Int) :: E1⟩ : CategoricalData α)
              se.1 se.2)).map (fun c => c.unique_values)).flatten
            = (List.replicate ((((0 : Int) :: b1 :: b2 :: B3).zip
                (b1 :: b2 :: B3)).map (fun se => partition_piece
                  (⟨V, I, (0 : Int) :: E1⟩ : CategoricalData α)
                  se.1 se.2)).length V).flatten := by
          rw [map_constant hvocab_each]
        have huniq : unique_in_order
            (((((0 : Int) :: b1 :: b2 :: B3).zip (b1 :: b2 :: B3)).map
              (fun se => partition_piece
                (⟨V, I, (0 : Int) :: E1⟩ : CategoricalData α)
                se.1 se.2)).map (fun c => c.unique_values)).flatten = V := by
          rw [hallVals]
          apply unique_in_order_flatten_replicate hnd
          rw [hPlen]
          simp only [List.length_cons]
          omega
        have hinv : ((((((0 : Int) :: b1 :: b2 :: B3).zip
            (b1 :: b2 :: B3)).map (fun se => partition_piece
              (⟨V, I, (0 : Int) :: E1⟩ : CategoricalData α)
              se.1 se.2)).map (fun c => c.unique_values)).flatten).map
            (fun x => posOf x (unique_in_order
              (((((0 : Int) :: b1 :: b2 :: B3).zip (b1 :: b2 :: B3)).map
                (fun se => partition_piece
                  (⟨V, I, (0 : Int) :: E1⟩ : CategoricalData α)
                  se.1 se.2)).map (fun c => c.unique_values)).flatten))
            = (List.replicate ((((0 : Int) :: b1 :: b2 :: B3).zip
                (b1 :: b2 :: B3)).map (fun se => partition_piece
                  (⟨V, I, (0 : Int) :: E1⟩ : CategoricalData α)
                  se.1 se.2)).length (List.range V.length)).flatten := by
          rw [huniq, hallVals, flatten_replicate_map_posOf hnd]
        have hIdx : concat_indices ((((0 : Int) :: b1 :: b2 :: B3).zip
            (b1 :: b2 :: B3)).map (fun se => partition_piece
              (⟨V, I, (0 : Int) :: E1⟩ : CategoricalData α) se.1 se.2))
            (((((((0 : Int) :: b1 :: b2 :: B3).zip
              (b1 :: b2 :: B3)).map (fun se => partition_piece
                (⟨V, I, (0 : Int) :: E1⟩ : CategoricalData α)
                se.1 se.2)).map (fun c => c.unique_values)).flatten).map
              (fun x => posOf x (unique_in_order
                (((((0 : Int) :: b1 :: b2 :: B3).zip (b1 :: b2 :: B3)).map
                  (fun se => partition_piece
                    (⟨V, I, (0 : Int) :: E1⟩ : CategoricalData α)
                    se.1 se.2)).map (fun c => c.unique_values)).flatten)))
            = (((((0 : Int) :: b1 :: b2 :: B3).zip (b1 :: b2 :: B3)).map
                (fun se => partition_piece
                  (⟨V, I, (0 : Int) :: E1⟩ : CategoricalData α)
                  se.1 se.2)).map (fun p => p.indices)).flatten := by
          rw [hinv]
          exact concat_indices_flatten _ hvocab_each hpidx
        have hwid : ((((0 : Int) :: b1 :: b2 :: B3).zip (b1 :: b2 :: B3)).map
            (fun se => partition_piece
              (⟨V, I, (0 : Int) :: E1⟩ : CategoricalData α)
              se.1 se.2)).map (fun c => c.events.getLastD 0)
            = (((0 : Int) :: b1 :: b2 :: B3).zip (b1 :: b2 :: B3)).map
              (fun se => se.2 - se.1) := by
          rw [List.map_map]
          apply List.map_congr_left
          intro se hse
          simp only [Function.comp_apply]
          exact partition_piece_getLastD _ _ _
        have hsegs : cumsum (0 :: ((((0 : Int) :: b1 :: b2 :: B3).zip
            (b1 :: b2 :: B3)).map (fun se => partition_piece
              (⟨V, I, (0 : Int) :: E1⟩ : CategoricalData α)
              se.1 se.2)).map (fun c => c.events.getLastD 0))
            = (0 : Int) :: b1 :: b2 :: B3 := by
          rw [hwid]
          have h2 := cumsumFrom_zip_widths ((0 : Int) :: b1 :: b2 :: B3) 0 rfl
          rw [List.tail_cons] at h2
          show ((0 : Int) :: cumsumFrom 0
            ((((0 : Int) :: b1 :: b2 :: B3).zip (b1 :: b2 :: B3)).map
              (fun se => se.2 - se.1))) = (0 : Int) :: b1 :: b2 :: B3
          rw [h2]
        have hlastB : ((0 : Int) :: b1 :: b2 :: B3).getLastD 0
            = ((0 : Int) :: E1).getLastD 0 := by
          rw [List.getLastD_eq_getLast?, hBl]
          rfl
        refine ⟨⟨V, (((((0 : Int) :: b1 :: b2 :: B3).zip
            (b1 :: b2 :: B3)).map (fun se => partition_piece
              (⟨V, I, (0 : Int) :: E1⟩ : CategoricalData α)
              se.1 se.2)).map (fun p => p.indices)).flatten,
            concat_events ((((0 : Int) :: b1 :: b2 :: B3).zip
              (b1 :: b2 :: B3)).map (fun se => partition_piece
                (⟨V, I, (0 : Int) :: E1⟩ : CategoricalData α) se.1 se.2))
              ((0 : Int) :: b1 :: b2 :: B3)
            ++ [((0 : Int) :: E1).getLastD 0]⟩, ?_, ?_⟩
        · rw [hpieces, concatenate_categorical_eq _ hlen1 hnnil, hIdx, hsegs,
            hlastB, huniq]
        · intro d hd0 hdL
          have hper_len : ∀ p ∈ ((((0 : Int) :: b1 :: b2 :: B3).zip
              (b1 :: b2 :: B3)).map (fun se => partition_piece
                (⟨V, I, (0 : Int) :: E1⟩ : CategoricalData α)
                se.1 se.2)), p.events.length = p.indices.length + 1 := by
            intro p hp
            rcases List.mem_map.1 hp with ⟨se, hsem, rfl⟩
            exact partition_piece_len _ _ _
          have hCElen : (concat_events ((((0 : Int) :: b1 :: b2 :: B3).zip
              (b1 :: b2 :: B3)).map (fun se => partition_piece
                (⟨V, I, (0 : Int) :: E1⟩ : CategoricalData α) se.1 se.2))
              ((0 : Int) :: b1 :: b2 :: B3)).length
              = (((((0 : Int) :: b1 :: b2 :: B3).zip (b1 :: b2 :: B3)).map
                (fun se => partition_piece
                  (⟨V, I, (0 : Int) :: E1⟩ : CategoricalData α)
                  se.1 se.2)).map (fun p => p.indices)).flatten.length :=
            concat_events_length _ _ hper_len
          have hNr : (concat_events ((((0 : Int) :: b1 :: b2 :: B3).zip
              (b1 :: b2 :: B3)).map (fun se => partition_piece
                (⟨V, I, (0 : Int) :: E1⟩ : CategoricalData α) se.1 se.2))
              ((0 : Int) :: b1 :: b2 :: B3)
              ++ [((0 : Int) :: E1).getLastD 0]).length
              = (((((0 : Int) :: b1 :: b2 :: B3).zip (b1 :: b2 :: B3)).map
                (fun se => partition_piece
                  (⟨V, I, (0 : Int) :: E1⟩ : CategoricalData α)
                  se.1 se.2)).map (fun p => p.indices)).flatten.length + 1 := by
            rw [List.length_append, hCElen]
            rfl
          have hsb := concat_events_sorted_bounds (V := V) hN hs
            (b1 :: b2 :: B3) 0 hB
          have hsr : (concat_events ((((0 : Int) :: b1 :: b2 :: B3).zip
              (b1 :: b2 :: B3)).map (fun se => partition_piece
                (⟨V, I, (0 : Int) :: E1⟩ : CategoricalData α) se.1 se.2))
              ((0 : Int) :: b1 :: b2 :: B3)
              ++ [((0 : Int) :: E1).getLastD 0]).Pairwise (· ≤ ·) := by
            apply sorted_append_last hsb.1
            intro x hx
            have hxx := (hsb.2 x hx).2
            rw [hlastB] at hxx
            omega
          have hdr : d < (concat_events ((((0 : Int) :: b1 :: b2 :: B3).zip
              (b1 :: b2 :: B3)).map (fun se => partition_piece
                (⟨V, I, (0 : Int) :: E1⟩ : CategoricalData α) se.1 se.2))
              ((0 : Int) :: b1 :: b2 :: B3)
              ++ [((0 : Int) :: E1).getLastD 0]).getLastD 0 := by
            rw [List.getLastD_concat]
            omega
          simp only [CategoricalData.getitem]
          congr 1
          rw [lookup_eq_stepIdx (c := ⟨V, (((((0 : Int) :: b1 :: b2 :: B3).zip
              (b1 :: b2 :: B3)).map (fun se => partition_piece
                (⟨V, I, (0 : Int) :: E1⟩ : CategoricalData α)
                se.1 se.2)).map (fun p => p.indices)).flatten,
              concat_events ((((0 : Int) :: b1 :: b2 :: B3).zip
                (b1 :: b2 :: B3)).map (fun se => partition_piece
                  (⟨V, I, (0 : Int) :: E1⟩ : CategoricalData α) se.1 se.2))
                ((0 : Int) :: b1 :: b2 :: B3)
              ++ [((0 : Int) :: E1).getLastD 0]⟩) hNr hsr hdr,
            lookup_eq_stepIdx
              (c := (⟨V, I, (0 : Int) :: E1⟩ : CategoricalData α)) hN hs hdL]
          show stepIdx ((((((0 : Int) :: b1 :: b2 :: B3).zip
              (b1 :: b2 :: B3)).map (fun se => partition_piece
                (⟨V, I, (0 : Int) :: E1⟩ : CategoricalData α)
                se.1 se.2)).map (fun p => p.indices)).flatten.zip
              (concat_events ((((0 : Int) :: b1 :: b2 :: B3).zip
                (b1 :: b2 :: B3)).map (fun se => partition_piece
                  (⟨V, I, (0 : Int) :: E1⟩ : CategoricalData α) se.1 se.2))
                ((0 : Int) :: b1 :: b2 :: B3)
              ++ [((0 : Int) :: E1).getLastD 0]).dropLast) d
            = stepIdx (I.zip ((0 : Int) :: E1).dropLast) d
          rw [List.dropLast_concat]
          exact (concat_partition_stepIdx (V := V) hN hs h0 hIne
            (b1 :: b2 :: B3) 0 le_rfl hB d hd0
            (by rw [hlastB]; exact hdL)).1

/-- Claim C5, counterexample to the unamended statement: the zero-length
series `ofValuesEvents [] [0]` together with the boundary sequence `[0]`
(strictly increasing, first element 0, last element equal to the total
length `events[-1] = 0`) satisfies the claim's premises, yet `partition`
yields no pieces, so concatenating them raises (`np.concatenate([])`,
modelled as `none`) instead of reproducing the original series. -/
theorem claim_C5_counterexample :
    concatenate_categorical
      ((CategoricalData.ofValuesEvents ([] : List String) [0]).partition
        ([0] : List Int)) true = none := by
  rfl

/-- Claim C5 witness: the amended round trip instantiated on the concrete
series with vocabulary `["a", "b"]`, indices `[0, 1]` and events `[0, 2, 5]`,
partitioned along the boundaries `[0, 1, 3, 5]`. -/
theorem claim_C5_witness :
    ∃ r, concatenate_categorical
        ((⟨["a", "b"], [0, 1], [0, 2, 5]⟩ :
          CategoricalData String).partition [0, 1, 3, 5]) true = some r
      ∧ ∀ d : Int, 0 ≤ d → d < ([0, 2, 5] : List Int).getLastD 0 →
          r.getitem d
            = (⟨["a", "b"], [0, 1], [0, 2, 5]⟩ :
              CategoricalData String).getitem d :=
  claim_C5_partition_concat (by decide) (by decide) rfl (by decide)
    (by decide) (by decide) rfl (by decide) (by decide)
